import Mathlib

/-!
A verification development for the `chaintools` chain-file library.

Modelling conventions:
* Rust byte slices (`&[u8]`) are modelled as `List Char`; every byte constant
  appearing in the source (`b'\n'`, `b'\t'`, `b'c'`, `b' '`) is ASCII, and all
  inputs exercised here are ASCII text, so `std::str::from_utf8` is modelled as
  the identity conversion `List.asString`.
* Rust unsigned machine integers (`u32`, `u64`) are modelled as `Nat`.
  `str::parse::<uN>` enforces the `2^N` bound.  A plain Rust `-` on unsigned
  integers is modelled by truncated `Nat` subtraction; every theorem that
  depends on a subtraction carries hypotheses under which the source cannot
  underflow, so the model and the source agree there.  `checked_sub(..)
  .unwrap_or(0)` is exactly truncated subtraction.
* A Rust `panic!` / `unwrap` failure / out-of-bounds index is distinguished
  from an `anyhow` error result: fallible operations return a result type with
  separate `err` (returned `Err` value) and `panic` (diverging) constructors.
-/

/-- Result of a fallible Rust computation: `ok`, a returned `Err` value,
or a panic (unwrap failure, out-of-bounds index, slice-range violation). -/
inductive PRes (α : Type) where
  | ok (a : α)
  | err (m : String)
  | panic (m : String)
deriving DecidableEq, Repr

/-- `cmap::align::AlignmentRecord`. -/
structure AlignmentRecord where
  size : Nat
  dt : Nat
  dq : Nat
  is_last : Bool
deriving DecidableEq, Repr

/-- `cmap::chain::ChainHead`. -/
structure ChainHead where
  chr : String
  size : Nat
  strand : Char
  start : Nat
  «end» : Nat
deriving DecidableEq, Repr

/-- `cmap::chain::Chain`. -/
structure Chain where
  score : Nat
  refs : ChainHead
  query : ChainHead
  alignment : List AlignmentRecord
  id : Nat
deriving DecidableEq, Repr

/-- `cmap::chain::BlockSide`. -/
inductive BlockSide where
  | Ref
  | Query
  | Both
deriving DecidableEq, Repr

/-- `cmap::chain::ChainBlock` (the enum in `cmap/chain.rs`). -/
inductive ChainBlock where
  | oneSided (id : String) (start «end» : Nat)
  | doubleSided (id : String) (r_start r_end q_start q_end : Nat)
deriving DecidableEq, Repr

/-- `memchr(b, data)`: index of the first occurrence of a byte, if any. -/
def memchr (b : Char) (l : List Char) : Option Nat :=
  l.findIdx? (· = b)

/-- Digit-string to value accumulator (helper for the model of
`str::parse::<uN>`). -/
def digitsVal : List Char → Nat → Nat
  | [], acc => acc
  | c :: rest, acc => digitsVal rest (acc * 10 + (c.toNat - '0'.toNat))

/-- Model of Rust `str::parse::<uN>` on an ASCII token (`bound = 2^N`):
an optional leading `+`, then one or more decimal digits, and the value must
fit the integer width; anything else is a parse error (`none`). -/
def parseUInt (bound : Nat) (l : List Char) : Option Nat :=
  let core := match l with
    | '+' :: rest => rest
    | _ => l
  if core ≠ [] ∧ core.all Char.isDigit ∧ digitsVal core 0 < bound then
    some (digitsVal core 0)
  else
    none

/-- `str::parse::<u64>`. -/
def parseU64 (l : List Char) : Option Nat := parseUInt (2 ^ 64) l

/-- `str::parse::<u32>`. -/
def parseU32 (l : List Char) : Option Nat := parseUInt (2 ^ 32) l

/-- One iteration step of `AlignmentRecord::parse_byte` (`cmap/align.rs`,
lines 199-264), with explicit fuel so that the recursion is structural; the
fuel is always instantiated above the input length, which makes the `fuel = 0`
branch unreachable.  The loop:
* no tab left: a remainder of length `< 2` ends the scan silently; otherwise
  the terminal `size` line is parsed up to the next newline (no newline is an
  error);
* a tab at `sep`: the next newline after `sep` and the next tab after
  `sep + 1` are found with `.unwrap()` (a missing one panics), the three
  fields are parsed as `u32`, and the scan continues after the newline. -/
def parseByteGo : Nat → List Char → PRes (List AlignmentRecord)
  | 0, _ => .panic "out of fuel"
  | fuel + 1, align =>
    match memchr '\t' align with
    | none =>
      if align.length < 2 then .ok []
      else
        match memchr '\n' align with
        | none => .err "Failed to find separator. Bad formatted line"
        | some e =>
          match parseU32 (align.take e) with
          | none => .err "Failed to parse size"
          | some size => .ok [⟨size, 0, 0, true⟩]
    | some sep =>
      match memchr '\n' (align.drop sep) with
      | none => .panic "called unwrap on a None value"
      | some e =>
        match memchr '\t' (align.drop (sep + 1)) with
        | none => .panic "called unwrap on a None value"
        | some mid =>
          match parseU32 (align.take sep) with
          | none => .err "Failed to parse size"
          | some size =>
            match parseU32 ((align.drop (sep + 1)).take mid) with
            | none => .err "Failed to parse dt from slice"
            | some dt =>
              -- `&align[sep + mid + 2..sep + end]`: a start beyond the end of
              -- the range is a slice panic in Rust
              if sep + e < sep + mid + 2 then .panic "slice index starts after end"
              else
                match parseU32 ((align.drop (sep + mid + 2)).take (e - mid - 2)) with
                | none => .err "Failed to parse dq"
                | some dq =>
                  match parseByteGo fuel (align.drop (sep + e + 1)) with
                  | .ok l => .ok (⟨size, dt, dq, false⟩ :: l)
                  | other => other

/-- `AlignmentRecord::parse_byte` (`cmap/align.rs`). -/
def parse_byte (align : List Char) : PRes (List AlignmentRecord) :=
  parseByteGo (align.length + 1) align

/-- `AlignmentRecord::parse` (`cmap/align.rs`, line 35): `.expect(..)` turns a
returned error into a panic. -/
def alignParse (align : List Char) : PRes (List AlignmentRecord) :=
  match parse_byte align with
  | .ok l => .ok l
  | .err _ => .panic "ERROR: Failed to parse alignment record"
  | .panic m => .panic m

/-- The space-splitting `memchr` loop of `Chain::head` (`cmap/chain.rs`, lines
324-333): cut the byte slice at every `b' '`, keeping empty pieces, and push
the remainder after the last space. -/
def splitSpaces : List Char → List (List Char)
  | [] => [[]]
  | c :: rest =>
    if c = ' ' then [] :: splitSpaces rest
    else
      match splitSpaces rest with
      | t :: ts => (c :: t) :: ts
      | [] => [[c]]

/-- `ChainHead::from` (`cmap/chain.rs`, lines 679-713): consumes exactly the
five tokens `chr size strand start end`; `strand` is `chars().next()` on the
token (an empty token is the only strand error, any first character is
accepted); the numeric fields go through `parse::<u64>`. -/
def ChainHead.from : List (List Char) → PRes ChainHead
  | [tchr, tsize, tstrand, tstart, tend] =>
    match parseU64 tsize with
    | none => .err "Failed to parse size. Bad formatted line"
    | some size =>
      match tstrand with
      | [] => .err "Failed to parse strand. Bad formatted line"
      | s :: _ =>
        match parseU64 tstart with
        | none => .err "Failed to parse start. Bad formatted line"
        | some start =>
          match parseU64 tend with
          | none => .err "Failed to parse end. Bad formatted line"
          | some e => .ok ⟨tchr.asString, size, s, start, e⟩
  | _ => .panic "slice of unexpected length"

/-- `ChainHead::to_string` (`cmap/chain.rs`, lines 733-738). -/
def ChainHead.render (h : ChainHead) : String :=
  h.chr ++ " " ++ Nat.repr h.size ++ " " ++ String.singleton h.strand ++ " "
    ++ Nat.repr h.start ++ " " ++ Nat.repr h.«end»

/-- `Chain::head` (`cmap/chain.rs`, lines 323-359): split the header on
spaces, read the two `ChainHead`s from tokens `2..7` and `7..12` (Rust slicing
panics when fewer tokens are present), then parse `score` from token 1 and
`id` from the *last* token.  Note what is *not* checked: the total field
count, the leading `chain` token, and the strand characters. -/
def Chain.head (header : List Char) : PRes (Nat × ChainHead × ChainHead × Nat) :=
  let acc := splitSpaces header
  if acc.length < 7 then .panic "range end index out of range"
  else if acc.length < 12 then .panic "range end index out of range"
  else
    match ChainHead.from ((acc.drop 2).take 5) with
    | .err m => .err m
    | .panic m => .panic m
    | .ok refs =>
      match ChainHead.from ((acc.drop 7).take 5) with
      | .err m => .err m
      | .panic m => .panic m
      | .ok query =>
        match parseU64 acc[1]! with
        | none => .err "Failed to parse score. Bad formatted line"
        | some score =>
          match parseU32 (acc.getLastD []) with
          | none => .err "Failed to parse id. Bad formatted line"
          | some id => .ok (score, refs, query, id)

/-- `Chain::from` (`cmap/chain.rs`, lines 65-79): parse the header, then the
body (whose parse failures are panics through `AlignmentRecord::parse`). -/
def Chain.fromParts (head block : List Char) : PRes (Nat × Chain) :=
  match Chain.head head with
  | .err m => .err m
  | .panic m => .panic m
  | .ok (score, refs, query, id) =>
    match alignParse block with
    | .err m => .err m
    | .panic m => .panic m
    | .ok alignment => .ok (id, ⟨score, refs, query, alignment, id⟩)

/-- The splitter loop of `Reader::parse` (`io/reader.rs`, lines 62-81), with
fuel (instantiated above the input length).  Each round finds the newline
closing the current header, then the next `b'c'` byte (the start of the next
`chain` record); the body slice drops the byte just before that `b'c'` (the
blank-line terminator).  When no further `b'c'` exists the rest of the buffer
is the final body. -/
def readerSplitGo : Nat → List Char → PRes (List (List Char × List Char))
  | 0, _ => .panic "out of fuel"
  | fuel + 1, data =>
    match memchr '\n' data with
    | none => .err "Failed to find separator. Bad formatted line"
    | some sep =>
      match memchr 'c' (data.drop sep) with
      | none => .ok [(data.take sep, data.drop (sep + 1))]
      | some e =>
        -- `&data[sep + 1..sep + end - 1]`: an inverted range is a slice panic
        if e < 2 then .panic "slice index starts after end"
        else
          match readerSplitGo fuel (data.drop (sep + e)) with
          | .ok rest => .ok ((data.take sep, (data.drop (sep + 1)).take (e - 2)) :: rest)
          | other => other

/-- `FxHashMap::insert` on the id-keyed chain map, modelled as an association
list (replace an existing key, else append). -/
def insertCM (m : List (Nat × Chain)) (id : Nat) (c : Chain) : List (Nat × Chain) :=
  if (m.lookup id).isSome then
    m.map (fun p => if p.1 = id then (id, c) else p)
  else m ++ [(id, c)]

/-- The collection phase of `Reader::parse` (`io/reader.rs`, lines 83-99):
`filter_map(|(header, block)| Chain::from(header, block).ok())` — a pair whose
parse returns `Err` is silently dropped; a panic inside `Chain::from`
(malformed body) crashes the call.  The parallel fold/reduce is modelled
sequentially; it is order-insensitive because ids are unique keys. -/
def readerCollect : List (List Char × List Char) → List (Nat × Chain) → PRes (List (Nat × Chain))
  | [], m => .ok m
  | (h, b) :: rest, m =>
    match Chain.fromParts h b with
    | .panic p => .panic p
    | .err _ => readerCollect rest m
    | .ok (id, c) => readerCollect rest (insertCM m id c)

/-- `Reader::parse` (`io/reader.rs`, lines 61-102). -/
def Reader.parse (data : List Char) : PRes (List (Nat × Chain)) :=
  match readerSplitGo (data.length + 1) data with
  | .err m => .err m
  | .panic m => .panic m
  | .ok pairs => readerCollect pairs []

/-- The per-record loop of `Chain::to_blocks` (`cmap/chain.rs`, lines
381-454), recursing over the alignment records with the reference cursor,
query cursor and 1-based block counter as state.  Note the gap-emission
condition is transcribed as in the source: `!(b.dq == 0 && b.dq == 0)`
(it tests `dq` twice and never reads `dt`). -/
def mkBlock (side : BlockSide) (name : String) (rs re qs qe : Nat) : ChainBlock :=
  match side with
  | .Ref => .oneSided name rs re
  | .Query => .oneSided name qs qe
  | .Both => .doubleSided name rs re qs qe

/-- The aligned block pushed for one record by `Chain::to_blocks`
(`cmap/chain.rs`, lines 395-415). -/
def alignedBlockOf (side : BlockSide) (q_strand : Bool) (b : AlignmentRecord)
    (r_start q_start block_num : Nat) : ChainBlock :=
  let q_block_start := if q_strand then q_start else q_start - b.size
  let q_block_end := if q_strand then q_start + b.size else q_start
  mkBlock side (Nat.repr block_num) r_start (r_start + b.size) q_block_start q_block_end

/-- The optional gap block pushed for one record by `Chain::to_blocks`
(`cmap/chain.rs`, lines 424-448), taking the cursors *after* the `size`
advance.  The emission condition is transcribed as in the source:
`!(b.dq == 0 && b.dq == 0)` — it tests `dq` twice and never reads `dt`. -/
def gapBlocksOf (side : BlockSide) (report_gaps q_strand : Bool) (b : AlignmentRecord)
    (r_start2 q_start2 block_num : Nat) : List ChainBlock :=
  if report_gaps && !(b.dq == 0 && b.dq == 0) then
    let gap_name := Nat.repr block_num ++ "_" ++ Nat.repr (block_num + 1)
    let g_q_start := if q_strand then q_start2 else q_start2 - b.dq
    let g_q_end := if q_strand then q_start2 + b.dq else q_start2
    [mkBlock side gap_name r_start2 (r_start2 + b.dt) g_q_start g_q_end]
  else []

def Chain.to_blocks_go (side : BlockSide) (report_gaps : Bool) (q_strand : Bool)
    (recs : List AlignmentRecord) (r_start q_start block_num : Nat) : List ChainBlock :=
  match recs with
  | [] => []
  | b :: rest =>
    alignedBlockOf side q_strand b r_start q_start block_num ::
      (gapBlocksOf side report_gaps q_strand b (r_start + b.size)
        (if q_strand then q_start + b.size else q_start - b.size) block_num ++
       Chain.to_blocks_go side report_gaps q_strand rest (r_start + b.size + b.dt)
        (if q_strand then q_start + b.size + b.dq else q_start - b.size - b.dq)
        (block_num + 1))

/-- `Chain::to_blocks` (`cmap/chain.rs`, lines 381-454). -/
def Chain.to_blocks (c : Chain) (side : BlockSide) (report_gaps : Bool) : List ChainBlock :=
  let q_strand := c.query.strand = '+'
  Chain.to_blocks_go side report_gaps q_strand c.alignment c.refs.start
    (if q_strand then c.query.start else c.query.size - c.query.start) 1

/-- The input-interval capability set consumed by the projection engine
(`cubiculum` traits `Coordinates + Named`, external to `src/`): `start()`,
`end()`, `name()`, `length()`, each returning an `Option`. -/
structure InIv where
  start? : Option Nat
  end? : Option Nat
  name? : Option String
  length? : Option Nat
deriving DecidableEq, Repr

/-- Modelled from the spec: the projected output interval
(`cubiculum::structs::structs::Interval`, a dependency absent from `src/`).
Per spec section 3 it carries `name`, `chrom` (the chain's query chromosome
label) and optional `start`/`end`; `Interval::new()` leaves every field unset,
`update_*` set one field and `reset_*` unset it. -/
structure PInterval where
  name? : Option String
  chrom? : Option String
  start? : Option Nat
  end? : Option Nat
deriving DecidableEq, Repr

def PInterval.update_start (p : PInterval) (v : Nat) : PInterval := {p with start? := some v}

def PInterval.update_end (p : PInterval) (v : Nat) : PInterval := {p with end? := some v}

def PInterval.reset_both (p : PInterval) : PInterval := {p with start? := none, end? := none}

/-- The sort comparator of `map_through_` (`cmap/project.rs`, lines 866-872):
compare starts, break ties on ends; every field access is `.unwrap()`, so a
missing field during comparison is a panic (`none`). -/
def cmpIv (a b : InIv) : Option Ordering := do
  let sa ← a.start?
  let sb ← b.start?
  if sa = sb then do
    let ea ← a.end?
    let eb ← b.end?
    pure (compare ea eb)
  else pure (compare sa sb)

/-- Stable insertion into a sorted prefix (Rust `slice::sort_by` is a stable
sort; on the short inputs exercised here it is an insertion sort).  `none`
propagates a comparator panic. -/
def insertSorted (x : InIv) : List InIv → Option (List InIv)
  | [] => some [x]
  | y :: ys => do
    let c ← cmpIv x y
    if c = Ordering.lt then some (x :: y :: ys)
    else do pure (y :: (← insertSorted x ys))

/-- `intervals.sort_by(..)` of `map_through_`, as a stable insertion sort with
panicking comparator. -/
def sortIvs (l : List InIv) : Option (List InIv) :=
  l.foldlM (fun acc x => insertSorted x acc) []

/-- The sweep state of `map_through_`: the output map (`FxHashMap` modelled as
an association list), the memoized relative thresholds `rel_sizes`, and the
mutable sweep variables `curr`, `curr_end`, `max_end`. -/
structure MtState where
  out : List (String × PInterval)
  relSizes : List (String × Nat)
  curr : Nat
  currEnd : Nat
  maxEnd : Nat
deriving DecidableEq, Repr

/-- Insert-if-absent into the output map (`cmap/project.rs`, lines 966-980):
a fresh `Interval::new()` immediately given the interval's name and the
chain's query chromosome. -/
def ensureOut (out : List (String × PInterval)) (n chrom : String) : List (String × PInterval) :=
  if (out.lookup n).isSome then out else out ++ [(n, ⟨some n, some chrom, none, none⟩)]

/-- `output.entry(name).and_modify(f)`. -/
def updOut (out : List (String × PInterval)) (n : String) (f : PInterval → PInterval) :
    List (String × PInterval) :=
  out.map fun p => if p.1 = n then (p.1, f p.2) else p

/-- The `as u64` cast of a nonnegative float product: truncate toward zero and
saturate at the integer width. -/
def ratToU64 (x : ℚ) : Nat := min (2 ^ 64 - 1) ⌊x⌋.toNat

/-- `rel_sizes.entry(name).or_insert((length().unwrap() as f64 * rel_threshold)
as u64)`: the argument is evaluated eagerly (so a missing `length` panics even
when the name is already memoized, modelled by `none`), and the memoized value
wins when present. -/
def getRel (relSizes : List (String × Nat)) (name : String) (len? : Option Nat) (relT : ℚ) :
    Option (Nat × List (String × Nat)) :=
  match len? with
  | none => none
  | some L =>
    let cand := ratToU64 ((L : ℚ) * relT)
    match relSizes.lookup name with
    | some v => some (v, relSizes)
    | none => some (cand, relSizes ++ [(name, cand)])

/-- Outcome of processing one interval inside a block scan of `map_through_`:
go to the next interval, break the interval loop, `break 'outer`, return an
error, or panic. -/
inductive StepOut where
  | proceed (s : MtState)
  | brkInner (s : MtState)
  | brkOuter (s : MtState)
  | fail (m : String)
  | die (m : String)
deriving DecidableEq, Repr

/-- Outcome of a whole block scan. -/
inductive PassOut where
  | done (s : MtState)
  | brkOuter (s : MtState)
  | fail (m : String)
  | die (m : String)
deriving DecidableEq, Repr

/-- Per-block constants handed to the interval scans of `map_through_`. -/
structure BlockCtx where
  len : Nat
  qchr : String
  codirected : Bool
  absT : Nat
  relT : ℚ
  h : Nat
  isLast : Bool
  rStart : Nat
  rBlockEnd : Nat
  qbs : Nat
  qbe : Nat
  rEnd : Nat
  queryEnd : Nat
deriving DecidableEq, Repr

/-- The `r_block_end < inter_start` break clause (`cmap/project.rs`, lines
986-1008 and identically 1271-1293): move `curr` to the computed absolute
index `i` only when the block's right edge passed `curr_end` (breaking the
outer loop when that moves `curr` past the end), then stretch `curr_end` to
this interval's end and break the interval loop. -/
def breakClause (len rBlockEnd i interEnd : Nat) (st : MtState) : StepOut :=
  if rBlockEnd > st.currEnd then
    let st1 := {st with curr := i}
    if st1.curr ≥ len then .brkOuter st1
    else .brkInner (if interEnd ≥ st1.currEnd then {st1 with currEnd := interEnd} else st1)
  else .brkInner (if interEnd ≥ st.currEnd then {st with currEnd := interEnd} else st)

/-- The `r_start > inter_end` continue clause (`cmap/project.rs`, lines
1012-1023 and identically 1296-1307): advance `curr` past this interval only
when it is the current leading interval (`inter_end == curr_end`), breaking
the outer loop when `curr` passes the end. -/
def continueClause (len interEnd : Nat) (st : MtState) : StepOut :=
  if interEnd = st.currEnd then
    let st1 := {st with curr := st.curr + 1}
    if st1.curr ≥ len then .brkOuter st1 else .proceed st1
  else .proceed st

/-- First-block chain-edge extrapolation (`cmap/project.rs`, lines 1027-1084):
when processing block 0 and the interval starts left of the chain, crop to the
block's query start (codirected) or capped query end, or extrapolate by the
offset with saturating subtraction / capped addition. -/
def stepMarginalFirst (ctx : BlockCtx) (interStart interEnd : Nat) (name : String)
    (len? : Option Nat) (st : MtState) : Option MtState :=
  if ctx.h = 0 ∧ interStart < ctx.rStart ∧ interEnd ≥ ctx.rStart then
    match getRel st.relSizes name len? ctx.relT with
    | none => none
    | some (relv, rs) =>
      let offset := ctx.rStart - interStart
      let st := {st with relSizes := rs}
      if offset > ctx.absT ∧ offset > relv then
        if ctx.codirected then some {st with out := updOut st.out name (·.update_start ctx.qbs)}
        else some {st with out := updOut st.out name (·.update_end (min ctx.qbe ctx.queryEnd))}
      else
        if ctx.codirected then
          some {st with out := updOut st.out name (·.update_start (ctx.qbs - offset))}
        else
          some {st with out := updOut st.out name (·.update_end (min (ctx.qbe + offset) ctx.queryEnd))}
  else some st

/-- Last-block chain-edge extrapolation (`cmap/project.rs`, lines 1088-1146),
symmetric to `stepMarginalFirst` for an interval end lying at or past
`refs.end`. -/
def stepLastBlock (ctx : BlockCtx) (interStart interEnd : Nat) (name : String)
    (len? : Option Nat) (st : MtState) : Option MtState :=
  if ctx.isLast ∧ interEnd ≥ ctx.rEnd ∧ interStart < ctx.rEnd then
    match getRel st.relSizes name len? ctx.relT with
    | none => none
    | some (relv, rs) =>
      let offset := interEnd - ctx.rBlockEnd
      let st := {st with relSizes := rs}
      if offset > ctx.absT ∧ offset > relv then
        if ctx.codirected then some {st with out := updOut st.out name (·.update_end (min ctx.qbe ctx.queryEnd))}
        else some {st with out := updOut st.out name (·.update_start ctx.qbs)}
      else
        if ctx.codirected then
          some {st with out := updOut st.out name (·.update_end (min (ctx.qbe + offset) ctx.queryEnd))}
        else
          some {st with out := updOut st.out name (·.update_start (ctx.qbs - offset))}
  else some st

/-- In-aligned-block start mapping (`cmap/project.rs`, lines 1149-1174):
`offset = inter_start - r_start`; codirected sets the projected start to
`q_block_start + offset` (uncapped), antiparallel sets the projected end to
`min(q_block_end - offset, query_end)`. -/
def stepAlignedStart (ctx : BlockCtx) (interStart : Nat) (name : String) (st : MtState) : MtState :=
  if ctx.rStart ≤ interStart ∧ interStart < ctx.rBlockEnd then
    let offset := interStart - ctx.rStart
    if ctx.codirected then {st with out := updOut st.out name (·.update_start (ctx.qbs + offset))}
    else {st with out := updOut st.out name (·.update_end (min (ctx.qbe - offset) ctx.queryEnd))}
  else st

/-- In-aligned-block end mapping (`cmap/project.rs`, lines 1176-1200):
`offset = r_block_end - inter_end`; codirected sets the projected end to
`min(q_block_end - offset, query_end)` (saturating subtraction), antiparallel
sets the projected start to `q_block_start + offset` (uncapped). -/
def stepAlignedEnd (ctx : BlockCtx) (interEnd : Nat) (name : String) (st : MtState) : MtState :=
  if ctx.rStart ≤ interEnd ∧ interEnd < ctx.rBlockEnd then
    let offset := ctx.rBlockEnd - interEnd
    if ctx.codirected then {st with out := updOut st.out name (·.update_end (min (ctx.qbe - offset) ctx.queryEnd))}
    else {st with out := updOut st.out name (·.update_start (ctx.qbs + offset))}
  else st

/-- One interval of the aligned-block scan of `map_through_`
(`cmap/project.rs`, lines 954-1204).  The absolute index is computed as
`i = enumIdx + curr` with the *current* value of `curr`, exactly as the
source's `for (mut i, inter) in intervals[curr..].iter().enumerate()
{ i += curr; .. }` does. -/
def alignedStep (ctx : BlockCtx) (iv : InIv) (enumIdx : Nat) (st : MtState) : StepOut :=
  let i := enumIdx + st.curr
  match iv.start? with
  | none => .fail "Interval has an undefined start coordinate which cannot be mapped"
  | some interStart =>
  match iv.end? with
  | none => .fail "Interval has an undefined end coordinate which cannot be mapped"
  | some interEnd =>
  match iv.name? with
  | none => .fail "Interval has an undefined name value; cannot assign projected coordinates"
  | some name =>
  let st := {st with out := ensureOut st.out name ctx.qchr}
  if ctx.rBlockEnd < interStart then breakClause ctx.len ctx.rBlockEnd i interEnd st
  else if ctx.rStart > interEnd then continueClause ctx.len interEnd st
  else
    match stepMarginalFirst ctx interStart interEnd name iv.length? st with
    | none => .die "called unwrap on a None value"
    | some st =>
    match stepLastBlock ctx interStart interEnd name iv.length? st with
    | none => .die "called unwrap on a None value"
    | some st =>
    let st := stepAlignedStart ctx interStart name st
    let st := stepAlignedEnd ctx interEnd name st
    let ce := max st.currEnd interEnd
    .proceed {st with currEnd := ce, maxEnd := max ce st.maxEnd}

/-- The gap-block start-endpoint projection rule (`cmap/project.rs`, lines
1310-1369): with `offset = r_block_end - inter_start` (distance from the
gap's right edge) and memoized relative threshold `relv`, crop to the gap's
query start (codirected; antiparallel: capped query end) when
`offset > abs_threshold && offset > relv`, else extrapolate to
`q_block_end - offset` (saturating) / `min(query_end, q_block_start +
offset)`. -/
def gapMapStart (codirected : Bool) (absT relv offset qbs qbe queryEnd : Nat)
    (p : PInterval) : PInterval :=
  if offset > absT ∧ offset > relv then
    if codirected then p.update_start qbs
    else p.update_end (min qbe queryEnd)
  else
    if codirected then p.update_start (qbe - offset)
    else p.update_end (min queryEnd (qbs + offset))

/-- The gap-block end-endpoint projection rule (`cmap/project.rs`, lines
1389-1444): with `offset = inter_end - r_start` (distance from the gap's left
edge), crop to the gap's capped query end (codirected; antiparallel: query
start) when over both thresholds, else extrapolate to
`min(q_block_start + offset, query_end)` / `q_block_end - offset`
(saturating). -/
def gapMapEnd (codirected : Bool) (absT relv offset qbs qbe queryEnd : Nat)
    (p : PInterval) : PInterval :=
  if offset > absT ∧ offset > relv then
    if codirected then p.update_end (min qbe queryEnd)
    else p.update_start qbs
  else
    if codirected then p.update_end (min (qbs + offset) queryEnd)
    else p.update_start (qbe - offset)

/-- The start-in-gap branch (`cmap/project.rs`, lines 1310-1370) as a state
transformer; `none` is the `length().unwrap()` panic inside the memoization. -/
def gapStartSub (ctx : BlockCtx) (interStart : Nat) (name : String) (len? : Option Nat)
    (st : MtState) : Option MtState :=
  if ctx.rStart ≤ interStart ∧ interStart < ctx.rBlockEnd then
    match getRel st.relSizes name len? ctx.relT with
    | none => none
    | some (relv, rs) =>
      let newOut := updOut st.out name
        (gapMapStart ctx.codirected ctx.absT relv (ctx.rBlockEnd - interStart)
          ctx.qbs ctx.qbe ctx.queryEnd)
      some {st with relSizes := rs, out := newOut}
  else some st

/-- One interval of the gap scan of `map_through_` (`cmap/project.rs`, lines
1241-1448), including the `coords_in_gap`/`ignore_undefined` reset (both
endpoints inside the same gap reset the projection and skip the
`curr_end`/`max_end` update via `continue`). -/
def gapStep (ctx : BlockCtx) (ig : Bool) (iv : InIv) (enumIdx : Nat) (st : MtState) : StepOut :=
  let i := enumIdx + st.curr
  match iv.start? with
  | none => .fail "Interval has an undefined start coordinate which cannot be mapped"
  | some interStart =>
  match iv.end? with
  | none => .fail "Interval has an undefined end coordinate which cannot be mapped"
  | some interEnd =>
  match iv.name? with
  | none => .fail "Interval has an undefined name value; cannot assign projected coordinates"
  | some name =>
  let st := {st with out := ensureOut st.out name ctx.qchr}
  if ctx.rBlockEnd < interStart then breakClause ctx.len ctx.rBlockEnd i interEnd st
  else if ctx.rStart > interEnd then continueClause ctx.len interEnd st
  else
    match gapStartSub ctx interStart name iv.length? st with
    | none => .die "called unwrap on a None value"
    | some st =>
      if ctx.rStart ≤ interEnd ∧ interEnd < ctx.rBlockEnd then
        if (ctx.rStart ≤ interStart ∧ interStart < ctx.rBlockEnd) ∧ ig then
          .proceed {st with out := updOut st.out name PInterval.reset_both}
        else
          match getRel st.relSizes name iv.length? ctx.relT with
          | none => .die "called unwrap on a None value"
          | some (relv, rs) =>
            let newOut := updOut st.out name
              (gapMapEnd ctx.codirected ctx.absT relv (interEnd - ctx.rStart)
                ctx.qbs ctx.qbe ctx.queryEnd)
            let st := {st with relSizes := rs, out := newOut}
            let ce := max st.currEnd interEnd
            .proceed {st with currEnd := ce, maxEnd := max ce st.maxEnd}
      else
        let ce := max st.currEnd interEnd
        .proceed {st with currEnd := ce, maxEnd := max ce st.maxEnd}

/-- The aligned-block interval scan (`for (mut i, inter) in
intervals[curr..].iter().enumerate()`). -/
def alignedPass (ctx : BlockCtx) : List InIv → Nat → MtState → PassOut
  | [], _, st => .done st
  | iv :: rest, enumIdx, st =>
    match alignedStep ctx iv enumIdx st with
    | .proceed s => alignedPass ctx rest (enumIdx + 1) s
    | .brkInner s => .done s
    | .brkOuter s => .brkOuter s
    | .fail m => .fail m
    | .die m => .die m

/-- The gap-block interval scan. -/
def gapPass (ctx : BlockCtx) (ig : Bool) : List InIv → Nat → MtState → PassOut
  | [], _, st => .done st
  | iv :: rest, enumIdx, st =>
    match gapStep ctx ig iv enumIdx st with
    | .proceed s => gapPass ctx ig rest (enumIdx + 1) s
    | .brkInner s => .done s
    | .brkOuter s => .brkOuter s
    | .fail m => .fail m
    | .die m => .die m

/-- Per-call constants of `map_through_`. -/
structure OuterCtx where
  I : List InIv
  len : Nat
  qchr : String
  codirected : Bool
  absT : Nat
  relT : ℚ
  ig : Bool
  rEnd : Nat
  queryEnd : Nat
deriving DecidableEq, Repr

/-- Outcome of one record of the outer loop of `map_through_`. -/
inductive OuterOut where
  | stop (out : List (String × PInterval))
  | next (minStart : Nat) (st : MtState)
  | fail (m : String)
  | die (m : String)
deriving DecidableEq, Repr

/-- One record of the outer loop of `map_through_` (`cmap/project.rs`, lines
925-1463): break once the cursor passed `max_end`; skip blocks wholly left of
`min_start`; run the aligned-block scan; break after a terminal record
(`dt == 0 && dq == 0`); skip reference-empty gaps (`dt == 0`); run the gap
scan; refresh `min_start` from `intervals[curr]`. -/
def outerStep (ctx : OuterCtx) (b : AlignmentRecord) (h minStart rStart qStart : Nat)
    (st : MtState) : OuterOut :=
  if rStart > st.maxEnd then .stop st.out
  else
    let rBlockEnd := rStart + b.size
    if rBlockEnd + b.dt < minStart then .next minStart st
    else
      let qbs := if ctx.codirected then qStart else qStart - b.size
      let qbe := if ctx.codirected then qStart + b.size else qStart
      let isLast := b.dt == 0 && b.dq == 0
      let actx : BlockCtx :=
        ⟨ctx.len, ctx.qchr, ctx.codirected, ctx.absT, ctx.relT, h, isLast,
          rStart, rBlockEnd, qbs, qbe, ctx.rEnd, ctx.queryEnd⟩
      match alignedPass actx (ctx.I.drop st.curr) 0 st with
      | .fail m => .fail m
      | .die m => .die m
      | .brkOuter s => .stop s.out
      | .done s =>
        if isLast then .stop s.out
        else
          -- cursor advances `r_start += size` / `q_start ±= size` folded into the
          -- gap window: reference `[r_start + size, r_start + size + dt)`, query
          -- `[q_start + size, q_start + size + dq)` (antiparallel mirrored)
          if b.dt == 0 then .next minStart s
          else if s.curr ≥ ctx.len then .stop s.out
          else
            let gqbs := if ctx.codirected then qStart + b.size else qStart - b.size - b.dq
            let gqbe := if ctx.codirected then qStart + b.size + b.dq else qStart - b.size
            let gctx : BlockCtx :=
              ⟨ctx.len, ctx.qchr, ctx.codirected, ctx.absT, ctx.relT, h, isLast,
                rStart + b.size, rStart + b.size + b.dt, gqbs, gqbe, ctx.rEnd, ctx.queryEnd⟩
            match gapPass gctx ctx.ig (ctx.I.drop s.curr) 0 s with
            | .fail m => .fail m
            | .die m => .die m
            | .brkOuter s2 => .stop s2.out
            | .done s2 =>
              if s2.curr ≥ ctx.len then .stop s2.out
              else
                match ctx.I.get? s2.curr with
                | none => .die "index out of bounds"
                | some ivc =>
                  match ivc.start? with
                  | none => .fail "Interval has an undefined start coordinate which cannot be mapped"
                  | some ms => .next ms s2

/-- The outer record loop of `map_through_`.  All three cursor-advance sites
of the source (`size + dt` on the skip path, `size` then `dt` on the normal
path, `dq` on the query side) leave the next record with the same cursors,
computed here once. -/
def mapThroughGo (ctx : OuterCtx) : List AlignmentRecord → Nat → Nat → Nat → Nat → MtState →
    PRes (List (String × PInterval))
  | [], _, _, _, _, st => .ok st.out
  | b :: rest, h, minStart, rStart, qStart, st =>
    match outerStep ctx b h minStart rStart qStart st with
    | .stop out => .ok out
    | .fail m => .err m
    | .die m => .panic m
    | .next minStart2 st2 =>
      mapThroughGo ctx rest (h + 1) minStart2 (rStart + b.size + b.dt)
        (if ctx.codirected then qStart + b.size + b.dq else qStart - b.size - b.dq) st2

/-- `Chain::map_through_` (`cmap/project.rs`, lines 852-1465): sort the
intervals in place (panicking on unwraps in the comparator), read `min_start`
/ `max_end` / `curr_end` from the first and last intervals (an empty input
panics at `intervals[0]`; a missing field is a returned error), fix the
strand model, and run the sweep. -/
def Chain.map_through_ (c : Chain) (ivs : List InIv) (absT : Nat) (relT : ℚ) (ig : Bool) :
    PRes (List (String × PInterval)) :=
  match sortIvs ivs with
  | none => .panic "called unwrap on a None value"
  | some I =>
    match I with
    | [] => .panic "index out of bounds"
    | iv0 :: _ =>
      match iv0.start? with
      | none => .err "Cannot map intervals with undefined coordinates"
      | some minStart =>
        match (I.getLastD ⟨none, none, none, none⟩).end? with
        | none => .err "Cannot map intervals with undefined coordinates"
        | some maxEnd =>
          match iv0.end? with
          | none => .err "Cannot map intervals with undefined coordinates"
          | some currEnd =>
            let codir := c.query.strand == '+'
            let qStart0 := if codir then c.query.start else c.query.size - c.query.start
            let queryEnd := if codir then c.query.«end» else c.query.size - c.query.start
            let ctx : OuterCtx :=
              ⟨I, I.length, c.query.chr, codir, absT, relT, ig, c.refs.«end», queryEnd⟩
            mapThroughGo ctx c.alignment 0 minStart c.refs.start qStart0 ⟨[], [], 0, currEnd, maxEnd⟩

/-! ## Example inputs used by the theorems below -/

/-- A two-record codirected chain whose first record has `dt = 1`, `dq = 0`
(reference-only gap), self-consistent: `9 + 1 + 5 = 15 = refs` span and
`9 + 0 + 5 = 14 =` query span. -/
def exC2 : Chain :=
  ⟨100, ⟨"r", 100, '+', 0, 15⟩, ⟨"q", 100, '+', 0, 14⟩, [⟨9, 1, 0, false⟩, ⟨5, 0, 0, true⟩], 7⟩

/-- A self-consistent codirected chain with aligned blocks `[12,15)` and
`[20,30)` on the reference (gap `[15,20)`). -/
def exC3 : Chain :=
  ⟨0, ⟨"r", 1000, '+', 12, 30⟩, ⟨"q", 1000, '+', 112, 130⟩,
    [⟨3, 5, 5, false⟩, ⟨10, 0, 0, true⟩], 1⟩

/-- A self-consistent codirected chain with aligned blocks `[100,120)`,
`[140,160)` and a two-sided gap `[120,140)` (query side `[520,540)`). -/
def exC4 : Chain :=
  ⟨0, ⟨"r", 1000, '+', 100, 160⟩, ⟨"q", 1000, '+', 500, 560⟩,
    [⟨20, 20, 20, false⟩, ⟨20, 0, 0, true⟩], 1⟩

/-- A minimal single-record codirected chain. -/
def exC5 : Chain :=
  ⟨0, ⟨"r", 100000, '+', 100, 150⟩, ⟨"q", 100000, '+', 1000, 1050⟩, [⟨50, 0, 0, true⟩], 1⟩

/-! ## C2 — gap-block emission in block materialization -/

/-- C2: the claim states that block materialization with gap reporting emits a
gap block unless both `dt` and `dq` are zero, and in particular that a record
with `dt > 0`, `dq == 0` emits one.  The code's condition
`!(b.dq == 0 && b.dq == 0)` tests `dq` twice (`cmap/chain.rs` line 424, and
identically `cmap/project.rs` line 192 in `yield_blocks`), so for `exC2`
(first record `dt = 1`, `dq = 0`) `to_blocks(Both, true)` emits *no* gap block
between aligned blocks 1 and 2 — the claim fails on this input. -/
theorem c2_gap_emission_eval :
    Chain.to_blocks exC2 .Both true =
      [.doubleSided "1" 0 9 0 9, .doubleSided "2" 10 15 9 14] ∧
    ∀ blk ∈ Chain.to_blocks exC2 .Both true, blk ≠ .doubleSided "1_2" 9 10 9 9 := by
  refine ⟨by decide, ?_⟩
  decide

/-! ## C3 — the sweep permanently skips an overlapping interval -/

/-- C3: the claim states that the sweep of `map_through_` never permanently
skips an interval overlapping some chain block.  For `exC3` with sorted
intervals `A = [0,10)` and `B = [20,30)`, during the aligned scan of block
`[12,15)` the pointer `curr` is first advanced past `A` (`curr = 1`), and
then, at `B`, the absolute index is computed as `i = enumIdx + curr = 2`
(enumeration is relative to the slice taken at scan entry, but `curr` has
moved), so `curr` jumps to 2 and the sweep breaks — even though `B` overlaps
the next aligned block `[20,30)` exactly.  `B` ends with no projected
coordinates although both its endpoints lie inside aligned block "2". -/
theorem c3_sweep_skip_eval :
    Chain.map_through_ exC3
        [⟨some 0, some 10, some "A", some 10⟩, ⟨some 20, some 30, some "B", some 10⟩] 0 0 false =
      .ok [("A", ⟨some "A", some "q", none, none⟩), ("B", ⟨some "B", some "q", none, none⟩)] ∧
    Chain.to_blocks exC3 .Both false =
      [.doubleSided "1" 12 15 112 115, .doubleSided "2" 20 30 120 130] := by
  constructor
  · decide
  · decide

/-! ## C5 — behaviour on empty and field-deficient inputs -/

/-- C5 counterexample: the claim states that `map_through_` fails with an
`EmptyInput` *error value* (rather than diverging or panicking) on an empty
interval list.  Evaluating the code on an empty list shows it panics at
`intervals[0]` (index out of bounds); no error value is ever returned. -/
theorem c5_counterexample :
    Chain.map_through_ exC5 [] 0 0 false = .panic "index out of bounds" := by
  decide

/-- C5 (amended): on an *empty* input list `map_through_` panics at
`intervals[0]` instead of returning an error; a *singleton* interval lacking
its start is reported through the returned error of line 876 (the in-sweep
`with_context` errors at lines 954-964 behave likewise). (With two or more
intervals a missing start already panics inside the sort comparator.) -/
theorem c5_amended (c : Chain) (absT : Nat) (relT : ℚ) (ig : Bool) (x : InIv)
    (hx : x.start? = none) :
    Chain.map_through_ c [] absT relT ig = .panic "index out of bounds" ∧
    Chain.map_through_ c [x] absT relT ig =
      .err "Cannot map intervals with undefined coordinates" := by
  constructor
  · rfl
  · simp [Chain.map_through_, sortIvs, List.foldlM, insertSorted, hx]

/-- C5 witness: the amended statement at a concrete chain and interval. -/
theorem c5_amended_witness :
    (⟨none, some 5, some "X", some 5⟩ : InIv).start? = none ∧
    (Chain.map_through_ exC5 [] 0 0 false = .panic "index out of bounds" ∧
     Chain.map_through_ exC5 [(⟨none, some 5, some "X", some 5⟩ : InIv)] 0 0 false =
       .err "Cannot map intervals with undefined coordinates") :=
  ⟨rfl, c5_amended exC5 0 0 false _ rfl⟩

/-! ## C4 — the gap crop/extrapolate threshold rule -/

/-- C4 counterexample: the claim states that with `abs_threshold = 0` and
`rel_threshold = 0` *every* gap-internal endpoint crops.  For `exC4` the gap
is `[120,140)` on the reference and `[520,540)` on the query; the interval
`X = [110,120)` has its end exactly at the gap's reference start, so the
end-endpoint offset `inter_end - r_start` is `0`, `0 > 0` fails, and the code
*extrapolates* the end to `q_block_start + 0 = 520` instead of cropping it to
the gap's query end `540`. -/
theorem c4_counterexample :
    Chain.map_through_ exC4 [⟨some 110, some 120, some "X", some 10⟩] 0 0 false =
      .ok [("X", ⟨some "X", some "q", some 510, some 520⟩)] ∧
    Chain.to_blocks exC4 .Both true =
      [.doubleSided "1" 100 120 500 520, .doubleSided "1_2" 120 140 520 540,
       .doubleSided "2" 140 160 540 560] ∧
    (520 : Nat) ≠ 540 := by
  refine ⟨by decide, by decide, by decide⟩

/-- Helper for C4: running `map_through_` on any interval `[a,b)` wholly inside
the gap `[120,140)` of `exC4` applies exactly the gap projection rule: the
start endpoint through `gapMapStart` with offset `140 - a` (distance from the
gap's right edge), then the end endpoint through `gapMapEnd` with offset
`b - 120` (distance from the gap's left edge), against the gap's query window
`[520,540)` capped at `query_end = 560`. -/
theorem mapThrough_gap_interval_eval (a b L absT : Nat) (relT : ℚ)
    (ha : 120 ≤ a) (hab : a ≤ b) (hb : b < 140) :
    Chain.map_through_ exC4 [⟨some a, some b, some "X", some L⟩] absT relT false =
      .ok [("X",
        gapMapEnd true absT (ratToU64 ((L : ℚ) * relT)) (b - 120) 520 540 560
          (gapMapStart true absT (ratToU64 ((L : ℚ) * relT)) (140 - a) 520 540 560
            ⟨some "X", some "q", none, none⟩))] := by
  have hb100 : ¬ (b < 100) := by omega
  have ha140 : ¬ (140 < a) := by omega
  set x : InIv := ⟨some a, some b, some "X", some L⟩ with hx
  set pX : PInterval := ⟨some "X", some "q", none, none⟩ with hpX
  set relv := ratToU64 ((L : ℚ) * relT) with hrelv
  set gms := gapMapStart true absT relv (140 - a) 520 540 560 pX with hgms
  set gme := gapMapEnd true absT relv (b - 120) 520 540 560 gms with hgme
  set actx : BlockCtx := ⟨1, "q", true, absT, relT, 0, false, 100, 120, 500, 520, 160, 560⟩
  set gctx : BlockCtx := ⟨1, "q", true, absT, relT, 0, false, 120, 140, 520, 540, 160, 560⟩
  set st0 : MtState := ⟨[], [], 0, b, b⟩ with hst0
  set st1 : MtState := ⟨[("X", pX)], [], 0, b, b⟩ with hst1
  set st2 : MtState := ⟨[("X", gme)], [("X", relv)], 0, b, b⟩ with hst2
  have hal : alignedPass actx [x] 0 st0 = .done st1 := by
    rcases Nat.lt_or_ge 120 a with hlt | hge
    · have h1 : (120 < a) := hlt
      have h2 : ¬ (120 > b) := by omega
      have h3 : b ≥ b := le_refl b
      simp [alignedPass, alignedStep, breakClause, ensureOut, hst0, hst1, h1, h2, h3]
    · have hA : a = 120 := by omega
      subst hA
      have h1 : ¬ (120 < 120) := by omega
      have h2 : ¬ (100 > b) := by omega
      have h3 : ¬ (120 < 100) := by omega
      have h4 : ¬ (120 ≤ 120 ∧ (120:Nat) < 120) := by omega
      have h5 : ¬ (100 ≤ b ∧ b < 120) := by omega
      simp [alignedPass, alignedStep, breakClause, continueClause, stepMarginalFirst,
        stepLastBlock, stepAlignedStart, stepAlignedEnd, ensureOut, hst0, hst1,
        h1, h2, h3, h4, h5]
  have hgap : gapPass gctx false [x] 0 st1 = .done st2 := by
    have h1 : ¬ (140 < a) := by omega
    have h2 : ¬ (120 > b) := by omega
    have h3 : (120 ≤ a ∧ a < 140) := by omega
    have h4 : (120 ≤ b ∧ b < 140) := by omega
    simp [gapPass, gapStep, gapStartSub, ensureOut, updOut, getRel, hst1, hst2,
      h1, h2, h3, h4, hgms, hgme]
  have hb140 : (140 > b) := by omega
  simp only [Chain.map_through_, sortIvs, List.foldlM, insertSorted, exC4]
  simp only [mapThroughGo, outerStep]
  simp [hal, hgap, hb100, ha140, hst2, hb140, hx]

/-- C4 (amended): for every endpoint inside a gap block, `map_through_`
computes `off` as the distance from the gap's right edge for the start
endpoint (`block.r_end - start`) and from the *left* edge for the end endpoint
(`end - block.r_start`), and memoizes `rel = (length · rel_threshold) as u64`;
if `off > abs_threshold` and `off > rel` the endpoint is cropped to the
corresponding query-side edge of the gap, otherwise it is extrapolated from
the opposite query edge (saturating at 0, capped at `query_end`).  In
particular an endpoint with `off == abs_threshold` (so also `off = 0`)
extrapolates; the original claim's assertion that with both thresholds zero
*every* gap-internal endpoint crops fails for an end endpoint lying exactly at
the gap's reference start (`off = 0`), which extrapolates —
see the counterexample. -/
theorem c4_amended (a b L absT : Nat) (relT : ℚ)
    (ha : 120 ≤ a) (hab : a ≤ b) (hb : b < 140) :
    (Chain.map_through_ exC4 [⟨some a, some b, some "X", some L⟩] absT relT false =
      .ok [("X",
        gapMapEnd true absT (ratToU64 ((L : ℚ) * relT)) (b - 120) 520 540 560
          (gapMapStart true absT (ratToU64 ((L : ℚ) * relT)) (140 - a) 520 540 560
            ⟨some "X", some "q", none, none⟩))]) ∧
    (∀ (codir : Bool) (relv off qbs qbe qe : Nat) (p : PInterval),
      off > absT → off > relv →
      gapMapStart codir absT relv off qbs qbe qe p =
        (if codir then p.update_start qbs else p.update_end (min qbe qe)) ∧
      gapMapEnd codir absT relv off qbs qbe qe p =
        (if codir then p.update_end (min qbe qe) else p.update_start qbs)) ∧
    (∀ (codir : Bool) (relv off qbs qbe qe : Nat) (p : PInterval),
      off ≤ absT →
      gapMapStart codir absT relv off qbs qbe qe p =
        (if codir then p.update_start (qbe - off) else p.update_end (min qe (qbs + off))) ∧
      gapMapEnd codir absT relv off qbs qbe qe p =
        (if codir then p.update_end (min (qbs + off) qe) else p.update_start (qbe - off))) := by
  refine ⟨mapThrough_gap_interval_eval a b L absT relT ha hab hb, ?_, ?_⟩
  · intro codir relv off qbs qbe qe p h1 h2
    constructor
    · simp [gapMapStart, h1, h2]
    · simp [gapMapEnd, h1, h2]
  · intro codir relv off qbs qbe qe p h1
    have h2 : ¬ (off > absT ∧ off > relv) := by omega
    constructor
    · simp only [gapMapStart, if_neg h2]
    · simp only [gapMapEnd, if_neg h2]

/-- C4 witness: the amended statement at the concrete gap-internal interval
`[125,130)` with `abs_threshold = 3`. -/
theorem c4_amended_witness :
    (120 ≤ 125 ∧ 125 ≤ 130 ∧ 130 < 140) ∧
    ((Chain.map_through_ exC4 [⟨some 125, some 130, some "X", some 10⟩] 3 0 false =
      .ok [("X",
        gapMapEnd true 3 (ratToU64 ((10 : ℚ) * 0)) (130 - 120) 520 540 560
          (gapMapStart true 3 (ratToU64 ((10 : ℚ) * 0)) (140 - 125) 520 540 560
            ⟨some "X", some "q", none, none⟩))]) ∧
    (∀ (codir : Bool) (relv off qbs qbe qe : Nat) (p : PInterval),
      off > 3 → off > relv →
      gapMapStart codir 3 relv off qbs qbe qe p =
        (if codir then p.update_start qbs else p.update_end (min qbe qe)) ∧
      gapMapEnd codir 3 relv off qbs qbe qe p =
        (if codir then p.update_end (min qbe qe) else p.update_start qbs)) ∧
    (∀ (codir : Bool) (relv off qbs qbe qe : Nat) (p : PInterval),
      off ≤ 3 →
      gapMapStart codir 3 relv off qbs qbe qe p =
        (if codir then p.update_start (qbe - off) else p.update_end (min qe (qbs + off))) ∧
      gapMapEnd codir 3 relv off qbs qbe qe p =
        (if codir then p.update_end (min (qbs + off) qe) else p.update_start (qbe - off)))) :=
  ⟨⟨by decide, by decide, by decide⟩,
    c4_amended 125 130 10 3 0 (by decide) (by decide) (by decide)⟩

/-! ## C6 and C9 — header parsing and rendering -/

/-- A space-free token splits to itself. -/
theorem splitSpaces_no_space (tok : List Char) (h : ' ' ∉ tok) : splitSpaces tok = [tok] := by
  induction tok with
  | nil => rfl
  | cons c rest ih =>
    have hc : ¬ (c = ' ') := fun hq => h (hq ▸ List.mem_cons_self c rest)
    have hr : ' ' ∉ rest := fun hq => h (List.mem_cons_of_mem c hq)
    simp [splitSpaces, hc, ih hr]

/-- Splitting peels one space-free token before each separator. -/
theorem splitSpaces_append (tok rest : List Char) (h : ' ' ∉ tok) :
    splitSpaces (tok ++ ' ' :: rest) = tok :: splitSpaces rest := by
  induction tok with
  | nil => simp [splitSpaces]
  | cons c t ih =>
    have hc : ¬ (c = ' ') := fun hq => h (hq ▸ List.mem_cons_self c t)
    have ht : ' ' ∉ t := fun hq => h (List.mem_cons_of_mem c hq)
    simp [splitSpaces, hc, ih ht]

/-- `asString` distributes over list append. -/
theorem asString_append (l1 l2 : List Char) : (l1 ++ l2).asString = l1.asString ++ l2.asString :=
  rfl

/-- `asString` is a left inverse of `toList`. -/
theorem asString_toList (s : String) : s.toList.asString = s := by
  cases s; rfl

/-- C9 counterexample: the claim states that `ChainHead::to_string` composed
with `ChainHead::from` is the identity on every valid head line.  The head
line `"chrY 007 + 0 5"` parses successfully (Rust `parse::<u64>` accepts
leading zeros), but rendering gives `"chrY 7 + 0 5"`, not the original
line. -/
theorem c9_counterexample :
    ChainHead.from (splitSpaces "chrY 007 + 0 5".toList) = .ok ⟨"chrY", 7, '+', 0, 5⟩ ∧
    ChainHead.render ⟨"chrY", 7, '+', 0, 5⟩ = "chrY 7 + 0 5" ∧
    ("chrY 7 + 0 5" : String) ≠ "chrY 007 + 0 5" := by
  refine ⟨by decide, by decide, by decide⟩

/-- C9 (amended): render ∘ parse is the identity on head lines whose numeric
tokens are the canonical decimal renderings of their values and whose strand
token is a single character: parsing the five tokens yields the encoded head
and rendering it reproduces the original line byte for byte. -/
theorem c9_amended (tchr tsize tstart tend : List Char) (sc : Char) (sz st en : Nat)
    (hs1 : parseU64 tsize = some sz) (hs2 : tsize = (Nat.repr sz).toList)
    (ht1 : parseU64 tstart = some st) (ht2 : tstart = (Nat.repr st).toList)
    (he1 : parseU64 tend = some en) (he2 : tend = (Nat.repr en).toList) :
    ChainHead.from [tchr, tsize, [sc], tstart, tend] = .ok ⟨tchr.asString, sz, sc, st, en⟩ ∧
    (ChainHead.render ⟨tchr.asString, sz, sc, st, en⟩).data =
      tchr ++ ' ' :: (tsize ++ ' ' :: (sc :: ' ' :: (tstart ++ ' ' :: tend))) := by
  constructor
  · simp [ChainHead.from, hs1, ht1, he1]
  · subst hs2 ht2 he2
    simp [ChainHead.render, String.data_append, List.asString, String.singleton, String.toList]

/-- C6 counterexample: the claim states that the header parser fails with
`MalformedHeader` when the leading token is not `chain` or a strand field is
not `+`/`-`.  The 13-field header `"nochain 5 r1 100 * 0 10 q1 100 * 0 10 3"`
has a wrong leading token and `*` strands, yet `Chain::head` returns `Ok`
(neither the leading token nor the strand characters are validated). -/
theorem c6_counterexample :
    Chain.head "nochain 5 r1 100 * 0 10 q1 100 * 0 10 3".toList =
      .ok (5, ⟨"r1", 100, '*', 0, 10⟩, ⟨"q1", 100, '*', 0, 10⟩, 3) := by
  decide

/-- C6 (amended): on every valid 13-field header (space-free tokens, numeric
fields parsing as `u64`/`u32`, nonempty strand tokens) `Chain::head` returns
the encoded `(score, refs, query, id)`.  The parser does *not* validate the
field count (fewer than 12 tokens panics on slicing, not `MalformedHeader`),
nor the leading token, nor the strand characters; it fails only when a
numeric field fails to parse or a strand token is empty. -/
theorem c6_amended
    (t0 tscore rchr rsize rstrand rstart rend qchr qsize qstrand qstart qend tid : List Char)
    (h0 : ' ' ∉ t0) (h1 : ' ' ∉ tscore) (h2 : ' ' ∉ rchr) (h3 : ' ' ∉ rsize)
    (h4 : ' ' ∉ rstrand) (h5 : ' ' ∉ rstart) (h6 : ' ' ∉ rend) (h7 : ' ' ∉ qchr)
    (h8 : ' ' ∉ qsize) (h9 : ' ' ∉ qstrand) (h10 : ' ' ∉ qstart) (h11 : ' ' ∉ qend)
    (h12 : ' ' ∉ tid)
    (score rs rst ren qs qst qen idv : Nat) (rsc qsc : Char) (rrest qrest : List Char)
    (hscore : parseU64 tscore = some score)
    (hrsize : parseU64 rsize = some rs) (hrstrand : rstrand = rsc :: rrest)
    (hrstart : parseU64 rstart = some rst) (hrend : parseU64 rend = some ren)
    (hqsize : parseU64 qsize = some qs) (hqstrand : qstrand = qsc :: qrest)
    (hqstart : parseU64 qstart = some qst) (hqend : parseU64 qend = some qen)
    (hid : parseU32 tid = some idv) :
    Chain.head (t0 ++ ' ' :: (tscore ++ ' ' :: (rchr ++ ' ' :: (rsize ++ ' ' :: (rstrand ++ ' ' ::
        (rstart ++ ' ' :: (rend ++ ' ' :: (qchr ++ ' ' :: (qsize ++ ' ' :: (qstrand ++ ' ' ::
        (qstart ++ ' ' :: (qend ++ ' ' :: tid)))))))))))) =
      .ok (score, ⟨rchr.asString, rs, rsc, rst, ren⟩, ⟨qchr.asString, qs, qsc, qst, qen⟩, idv) := by
  unfold Chain.head
  rw [splitSpaces_append _ _ h0, splitSpaces_append _ _ h1, splitSpaces_append _ _ h2,
    splitSpaces_append _ _ h3, splitSpaces_append _ _ h4, splitSpaces_append _ _ h5,
    splitSpaces_append _ _ h6, splitSpaces_append _ _ h7, splitSpaces_append _ _ h8,
    splitSpaces_append _ _ h9, splitSpaces_append _ _ h10, splitSpaces_append _ _ h11,
    splitSpaces_no_space _ h12]
  subst hrstrand hqstrand
  simp [ChainHead.from, List.getLastD, hscore, hrsize, hrstart, hrend, hqsize, hqstart, hqend, hid]

/-- C6 witness: the amended statement at the concrete header of spec
scenario 1. -/
theorem c6_amended_witness :
    Chain.head "chain 4900 chrY 58368225 + 25985403 25985638 chr5 151006098 - 43257292 43257528 1".toList =
      .ok (4900, ⟨"chrY", 58368225, '+', 25985403, 25985638⟩,
        ⟨"chr5", 151006098, '-', 43257292, 43257528⟩, 1) := by
  have h := c6_amended "chain".toList "4900".toList "chrY".toList "58368225".toList "+".toList
    "25985403".toList "25985638".toList "chr5".toList "151006098".toList "-".toList
    "43257292".toList "43257528".toList "1".toList
    (by decide) (by decide) (by decide) (by decide) (by decide) (by decide) (by decide)
    (by decide) (by decide) (by decide) (by decide) (by decide) (by decide)
    4900 58368225 25985403 25985638 151006098 43257292 43257528 1 '+' '-' [] []
    (by decide) (by decide) (by decide) (by decide) (by decide) (by decide) (by decide)
    (by decide) (by decide) (by decide)
  have e : "chain 4900 chrY 58368225 + 25985403 25985638 chr5 151006098 - 43257292 43257528 1".toList =
      "chain".toList ++ ' ' :: ("4900".toList ++ ' ' :: ("chrY".toList ++ ' ' :: ("58368225".toList ++ ' ' ::
        ("+".toList ++ ' ' :: ("25985403".toList ++ ' ' :: ("25985638".toList ++ ' ' :: ("chr5".toList ++ ' ' ::
        ("151006098".toList ++ ' ' :: ("-".toList ++ ' ' :: ("43257292".toList ++ ' ' ::
        ("43257528".toList ++ ' ' :: "1".toList)))))))))))  := by decide
  rw [e]
  exact h

/-- C9 witness: the amended round-trip at a concrete head line. -/
theorem c9_amended_witness :
    parseU64 "58368225".toList = some 58368225 ∧
    (ChainHead.from ["chrY".toList, "58368225".toList, ['+'], "25985403".toList, "25985638".toList] =
        .ok ⟨"chrY", 58368225, '+', 25985403, 25985638⟩ ∧
      (ChainHead.render ⟨"chrY", 58368225, '+', 25985403, 25985638⟩).data =
        "chrY".toList ++ ' ' :: ("58368225".toList ++ ' ' ::
          ('+' :: ' ' :: ("25985403".toList ++ ' ' :: "25985638".toList)))) :=
  ⟨by decide,
    c9_amended "chrY".toList "58368225".toList "25985403".toList "25985638".toList '+'
      58368225 25985403 25985638
      (by decide) (by decide) (by decide) (by decide) (by decide) (by decide)⟩

/-! ## C10 and C1 — alignment-body tail behaviour and reader error handling -/

/-- A search over a clean token finds the first matching separator after it. -/
theorem findIdx?_token (p : Char → Bool) (tok : List Char) (hc : ∀ c ∈ tok, p c = false)
    (c0 : Char) (h0 : p c0 = true) (rest : List Char) :
    ∀ i, List.findIdx? p (tok ++ c0 :: rest) i = some (i + tok.length) := by
  induction tok with
  | nil => intro i; simp [List.findIdx?_cons, h0]
  | cons a t ih =>
    intro i
    have ha : p a = false := hc a (List.mem_cons_self a t)
    have ht : ∀ c ∈ t, p c = false := fun c h => hc c (List.mem_cons_of_mem a h)
    rw [List.cons_append, List.findIdx?_cons, ha]
    simp only [Bool.false_eq_true, if_false]
    rw [ih ht (i + 1)]
    congr 1
    simp
    omega

/-- `memchr` finds the separator right after a token that does not contain it. -/
theorem memchr_token (b : Char) (tok rest : List Char) (h : b ∉ tok) :
    memchr b (tok ++ b :: rest) = some tok.length := by
  unfold memchr
  have := findIdx?_token (· = b) tok (fun c hc => by
    simp only [decide_eq_false_iff_not]
    exact fun he => h (he ▸ hc)) b (by simp) rest 0
  simpa using this

/-- `memchr` misses on a slice not containing the byte. -/
theorem memchr_none (b : Char) (l : List Char) (h : b ∉ l) : memchr b l = none := by
  unfold memchr
  rw [List.findIdx?_eq_none_iff]
  intro x hx
  simp only [decide_eq_false_iff_not]
  exact fun he => h (he ▸ hx)

/-- The fuel of `parseByteGo` is irrelevant above the input length. -/
theorem parseByteGo_fuel : ∀ f g l, l.length < f → l.length < g →
    parseByteGo f l = parseByteGo g l := by
  intro f
  induction f with
  | zero => intro g l hf; omega
  | succ f ih =>
    intro g l hf hg
    cases g with
    | zero => omega
    | succ g =>
      have hdroplen : ∀ k : Nat, 1 ≤ k → l ≠ [] → (l.drop k).length < f ∧ (l.drop k).length < g := by
        intro k hk hne
        have h1 : (l.drop k).length = l.length - k := List.length_drop k l
        have h2 : 1 ≤ l.length := by
          cases l with
          | nil => exact absurd rfl hne
          | cons a t => simp
        omega
      cases hsep : memchr '\t' l with
      | none => simp only [parseByteGo, hsep]
      | some sep =>
        cases hnl : memchr '\n' (l.drop sep) with
        | none => simp only [parseByteGo, hsep, hnl]
        | some e =>
          cases hmid : memchr '\t' (l.drop (sep + 1)) with
          | none => simp only [parseByteGo, hsep, hnl, hmid]
          | some mid =>
            cases hsz : parseU32 (l.take sep) with
            | none => simp only [parseByteGo, hsep, hnl, hmid, hsz]
            | some size =>
              cases hdt : parseU32 ((l.drop (sep + 1)).take mid) with
              | none => simp only [parseByteGo, hsep, hnl, hmid, hsz, hdt]
              | some dt =>
                by_cases hsl : sep + e < sep + mid + 2
                · simp only [parseByteGo, hsep, hnl, hmid, hsz, hdt, if_pos hsl]
                · cases hdq : parseU32 ((l.drop (sep + mid + 2)).take (e - mid - 2)) with
                  | none => simp only [parseByteGo, hsep, hnl, hmid, hsz, hdt, if_neg hsl, hdq]
                  | some dq =>
                    have hne : l ≠ [] := by
                      intro hl
                      rw [hl] at hsep
                      simp [memchr] at hsep
                    obtain ⟨ha, hb⟩ := hdroplen (sep + e + 1) (by omega) hne
                    simp only [parseByteGo, hsep, hnl, hmid, hsz, hdt, if_neg hsl, hdq]
                    rw [ih g (l.drop (sep + e + 1)) ha hb]

/-- Prepend a record to an `ok` parse result, passing failures through. -/
def consPR (r : AlignmentRecord) : PRes (List AlignmentRecord) → PRes (List AlignmentRecord)
  | .ok l => .ok (r :: l)
  | .err m => .err m
  | .panic m => .panic m

/-- A nonempty all-digit token whose `u32` parse yields `v`. -/
def DigitTok (v : Nat) (l : List Char) : Prop :=
  l ≠ [] ∧ (∀ c ∈ l, c.isDigit) ∧ parseU32 l = some v

/-- `NonLastLines recs pre`: `pre` is a sequence of complete non-terminal
alignment lines `size\tdt\tdq\n` encoding `recs`. -/
inductive NonLastLines : List AlignmentRecord → List Char → Prop
  | nil : NonLastLines [] []
  | cons (s d q : List Char) (vs vd vq : Nat) (recs : List AlignmentRecord) (pre : List Char) :
      DigitTok vs s → DigitTok vd d → DigitTok vq q → NonLastLines recs pre →
      NonLastLines (⟨vs, vd, vq, false⟩ :: recs)
        (s ++ '\t' :: (d ++ '\t' :: (q ++ '\n' :: pre)))

/-- Digit tokens contain no tab. -/
theorem digit_no_tab {v : Nat} {l : List Char} (h : DigitTok v l) : '\t' ∉ l :=
  fun hm => absurd (h.2.1 '\t' hm) (by decide)

/-- Digit tokens contain no newline. -/
theorem digit_no_nl {v : Nat} {l : List Char} (h : DigitTok v l) : '\n' ∉ l :=
  fun hm => absurd (h.2.1 '\n' hm) (by decide)

/-- One complete non-terminal alignment line is consumed into one record and
the scan continues on the remainder. -/
theorem parse_byte_cons (s d q rest : List Char) (vs vd vq : Nat)
    (hs : DigitTok vs s) (hd : DigitTok vd d) (hq : DigitTok vq q) :
    parse_byte (s ++ '\t' :: (d ++ '\t' :: (q ++ '\n' :: rest))) =
      consPR ⟨vs, vd, vq, false⟩ (parse_byte rest) := by
  set L := s ++ '\t' :: (d ++ '\t' :: (q ++ '\n' :: rest)) with hL
  have e1 : memchr '\t' L = some s.length := memchr_token '\t' s _ (digit_no_tab hs)
  have e2 : L.drop s.length = '\t' :: (d ++ '\t' :: (q ++ '\n' :: rest)) := by
    rw [hL]; exact List.drop_left s _
  have e3 : memchr '\n' ('\t' :: (d ++ '\t' :: (q ++ '\n' :: rest)))
      = some (d.length + q.length + 2) := by
    have h1 : '\n' ∉ ('\t' :: (d ++ '\t' :: q)) := by
      intro hm
      rcases List.mem_cons.1 hm with h | h
      · exact absurd h (by decide)
      · rcases List.mem_append.1 h with h | h
        · exact digit_no_nl hd h
        · rcases List.mem_cons.1 h with h | h
          · exact absurd h (by decide)
          · exact digit_no_nl hq h
    have h2 := memchr_token '\n' ('\t' :: (d ++ '\t' :: q)) rest h1
    have h3 : ('\t' :: (d ++ '\t' :: q)) ++ '\n' :: rest
        = '\t' :: (d ++ '\t' :: (q ++ '\n' :: rest)) := by simp
    rw [h3] at h2
    rw [h2]
    congr 1
    simp
    omega
  have e4 : L.drop (s.length + 1) = d ++ '\t' :: (q ++ '\n' :: rest) := by
    rw [show s.length + 1 = (s ++ ['\t']).length from by simp, hL,
      show s ++ '\t' :: (d ++ '\t' :: (q ++ '\n' :: rest))
        = (s ++ ['\t']) ++ (d ++ '\t' :: (q ++ '\n' :: rest)) from by simp]
    exact List.drop_left _ _
  have e5 : memchr '\t' (d ++ '\t' :: (q ++ '\n' :: rest)) = some d.length :=
    memchr_token '\t' d _ (digit_no_tab hd)
  have e6 : L.take s.length = s := by rw [hL]; exact List.take_left s _
  have e7 : (d ++ '\t' :: (q ++ '\n' :: rest)).take d.length = d := List.take_left d _
  have e8 : L.drop (s.length + d.length + 2) = q ++ '\n' :: rest := by
    rw [show s.length + d.length + 2 = (s ++ '\t' :: (d ++ ['\t'])).length from by simp; omega, hL,
      show s ++ '\t' :: (d ++ '\t' :: (q ++ '\n' :: rest))
        = (s ++ '\t' :: (d ++ ['\t'])) ++ (q ++ '\n' :: rest) from by simp]
    exact List.drop_left _ _
  have e9 : (q ++ '\n' :: rest).take (d.length + q.length + 2 - d.length - 2) = q := by
    rw [show d.length + q.length + 2 - d.length - 2 = q.length from by omega]
    exact List.take_left q _
  have e10 : L.drop (s.length + (d.length + q.length + 2) + 1) = rest := by
    rw [show s.length + (d.length + q.length + 2) + 1
        = (s ++ '\t' :: (d ++ '\t' :: (q ++ ['\n']))).length from by simp; omega, hL,
      show s ++ '\t' :: (d ++ '\t' :: (q ++ '\n' :: rest))
        = (s ++ '\t' :: (d ++ '\t' :: (q ++ ['\n']))) ++ rest from by simp]
    exact List.drop_left _ _
  have hguard : ¬ (s.length + (d.length + q.length + 2) < s.length + d.length + 2) := by omega
  have hLlen : rest.length < L.length := by
    rw [hL]; simp; omega
  have efuel : parseByteGo L.length rest = parse_byte rest :=
    parseByteGo_fuel L.length (rest.length + 1) rest hLlen (by omega)
  show parseByteGo (L.length + 1) L = _
  simp only [parseByteGo, e1, e2, e3, e4, e5, e6, e7, hs.2.2, hd.2.2, hq.2.2,
    if_neg hguard, e8, e9, e10, efuel]
  cases parse_byte rest <;> rfl

/-- C10: after any sequence of complete alignment lines, a remaining suffix of
exactly one byte (other than a lone tab — e.g. a one-digit terminal size line
with no trailing newline) makes `parse_byte` return `Ok` with that terminal
record silently omitted (no terminal record, no error, guarded by the
`align.len() < 2` early break), whereas a suffix of two or more bytes without
tab or newline produces an error. -/
theorem c10_tail_byte (recs : List AlignmentRecord) (pre t : List Char) (h : NonLastLines recs pre) :
    (t.length = 1 → t ≠ ['\t'] → parse_byte (pre ++ t) = .ok recs) ∧
    (2 ≤ t.length → '\t' ∉ t → '\n' ∉ t → ∃ m, parse_byte (pre ++ t) = .err m) := by
  induction h with
  | nil =>
    constructor
    · intro h1 h2
      obtain ⟨c, hc⟩ : ∃ c, t = [c] := by
        cases t with
        | nil => simp at h1
        | cons a t' =>
          cases t' with
          | nil => exact ⟨a, rfl⟩
          | cons b t'' => simp at h1
      subst hc
      have hcc : '\t' ∉ [c] := by
        intro hm
        have hce : '\t' = c := List.mem_singleton.1 hm
        exact h2 (by rw [← hce])
      simp only [List.nil_append, parse_byte, parseByteGo, memchr_none '\t' [c] hcc]
      simp
    · intro h1 h2 h3
      refine ⟨"Failed to find separator. Bad formatted line", ?_⟩
      have e1 : memchr '\t' t = none := memchr_none _ _ h2
      have e2 : memchr '\n' t = none := memchr_none _ _ h3
      have e3 : ¬ (t.length < 2) := by omega
      simp only [List.nil_append, parse_byte, parseByteGo, e1, e2, if_neg e3]
  | cons s d q vs vd vq recs' pre' hs hd hq hnl ih =>
    have hassoc : (s ++ '\t' :: (d ++ '\t' :: (q ++ '\n' :: pre'))) ++ t
        = s ++ '\t' :: (d ++ '\t' :: (q ++ '\n' :: (pre' ++ t))) := by simp
    constructor
    · intro h1 h2
      rw [hassoc, parse_byte_cons _ _ _ _ _ _ _ hs hd hq, ih.1 h1 h2]
      rfl
    · intro h1 h2 h3
      obtain ⟨m, hm⟩ := ih.2 h1 h2 h3
      exact ⟨m, by rw [hassoc, parse_byte_cons _ _ _ _ _ _ _ hs hd hq, hm]; rfl⟩

/-- C10 witness: `"9\t1\t0\n7"` parses to just the one non-terminal record
(the trailing `7` vanishes silently), while `"9\t1\t0\n77"` errors. -/
theorem c10_tail_byte_witness :
    parse_byte "9\t1\t0\n7".toList = .ok [⟨9, 1, 0, false⟩] ∧
    (∃ m, parse_byte "9\t1\t0\n77".toList = .err m) := by
  have h : NonLastLines [⟨9, 1, 0, false⟩] ("9\t1\t0\n".toList) := by
    have := NonLastLines.cons ['9'] ['1'] ['0'] 9 1 0 [] []
      (by refine ⟨by decide, by decide, by decide⟩)
      (by refine ⟨by decide, by decide, by decide⟩)
      (by refine ⟨by decide, by decide, by decide⟩)
      NonLastLines.nil
    simpa using this
  have h7 := (c10_tail_byte [⟨9, 1, 0, false⟩] "9\t1\t0\n".toList "7".toList h).1
    (by decide) (by decide)
  have h77 := (c10_tail_byte [⟨9, 1, 0, false⟩] "9\t1\t0\n".toList "77".toList h).2
    (by decide) (by decide) (by decide)
  constructor
  · rw [show "9\t1\t0\n7".toList = "9\t1\t0\n".toList ++ "7".toList from by decide]
    exact h7
  · obtain ⟨m, hm⟩ := h77
    exact ⟨m, by rw [show "9\t1\t0\n77".toList = "9\t1\t0\n".toList ++ "77".toList from by decide]; exact hm⟩

/-- Whether a result is a panic. -/
def PRes.isPanic {α : Type} : PRes α → Bool
  | .panic _ => true
  | _ => false

/-- A two-chain input whose first chain has the unparsable score `X` and whose
second chain is well-formed. -/
def exC1 : List Char :=
  ("chain X r1 100 + 0 20 q1 100 + 0 20 1\n20\n\n" ++
   "chain 9 r2 100 + 0 30 q2 100 + 0 30 2\n30\n").toList

/-- The `(header, body)` pairs the splitter produces for `exC1`. -/
def exC1pairs : List (List Char × List Char) :=
  [("chain X r1 100 + 0 20 q1 100 + 0 20 1".toList, "20\n".toList),
   ("chain 9 r2 100 + 0 30 q2 100 + 0 30 2".toList, "30\n".toList)]

/-- C1 counterexample: the claim states that `Reader::parse` aborts with an
error at the first malformation and never silently omits a malformed chain
while reporting success.  On `exC1` the first chain's header fails to parse
(score `X`), yet `Reader::parse` returns `Ok` with a map containing only
chain 2 — the malformed chain is silently dropped by the
`filter_map(.. .ok())` at `io/reader.rs` line 85. -/
theorem c1_counterexample :
    Chain.fromParts "chain X r1 100 + 0 20 q1 100 + 0 20 1".toList "20\n".toList =
      .err "Failed to parse score. Bad formatted line" ∧
    Reader.parse exC1 =
      .ok [(2, ⟨9, ⟨"r2", 100, '+', 0, 30⟩, ⟨"q2", 100, '+', 0, 30⟩, [⟨30, 0, 0, true⟩], 2⟩)] := by
  refine ⟨by decide, by decide⟩

/-- The collection phase never fails: parse errors are dropped, so it returns
`Ok` whenever no pair panics. -/
theorem readerCollect_ok (pairs : List (List Char × List Char)) :
    ∀ m, (∀ p ∈ pairs, (Chain.fromParts p.1 p.2).isPanic = false) →
      ∃ r, readerCollect pairs m = .ok r := by
  induction pairs with
  | nil => intro m _; exact ⟨m, rfl⟩
  | cons p rest ih =>
    intro m hp
    obtain ⟨h, b⟩ := p
    have hrest : ∀ x ∈ rest, (Chain.fromParts x.1 x.2).isPanic = false :=
      fun x hx => hp x (List.mem_cons_of_mem _ hx)
    have hph := hp (h, b) (List.mem_cons_self _ _)
    cases hf : Chain.fromParts h b with
    | ok idc =>
      obtain ⟨r, hr⟩ := ih (insertCM m idc.1 idc.2) hrest
      exact ⟨r, by simp only [readerCollect, hf]; exact hr⟩
    | err e =>
      obtain ⟨r, hr⟩ := ih m hrest
      exact ⟨r, by simp only [readerCollect, hf]; exact hr⟩
    | panic e =>
      rw [hf] at hph
      simp [PRes.isPanic] at hph

/-- C1 (amended): whenever the splitter succeeds and no chain body causes a
panic, `Reader::parse` reports success — a chain whose parse returns an error
(e.g. a malformed header) does not abort the call and is silently omitted
from the returned map.  (A malformed body instead panics through
`AlignmentRecord::parse`'s `expect`, which is also not a returned error.) -/
theorem c1_amended (data : List Char) (pairs : List (List Char × List Char))
    (hsplit : readerSplitGo (data.length + 1) data = .ok pairs)
    (hnp : ∀ p ∈ pairs, (Chain.fromParts p.1 p.2).isPanic = false) :
    ∃ m, Reader.parse data = .ok m := by
  obtain ⟨r, hr⟩ := readerCollect_ok pairs [] hnp
  exact ⟨r, by simp only [Reader.parse, hsplit]; exact hr⟩

/-- C1 witness: on `exC1` the splitter succeeds, the first pair's parse is an
error, and `Reader::parse` still reports success. -/
theorem c1_amended_witness :
    readerSplitGo (exC1.length + 1) exC1 = .ok exC1pairs ∧
    Chain.fromParts exC1pairs[0]!.1 exC1pairs[0]!.2 =
      .err "Failed to parse score. Bad formatted line" ∧
    (∃ m, Reader.parse exC1 = .ok m) :=
  ⟨by decide, by decide, c1_amended exC1 exC1pairs (by decide) (by decide)⟩

/-! ## C7 — block widths and ids -/

/-- Sum of `size + dq` over alignment records (the query-side span). -/
def sumSQ : List AlignmentRecord → Nat
  | [] => 0
  | b :: rest => b.size + b.dq + sumSQ rest

/-- `BlocksSpec n recs blks`: the block list decomposes record by record; the
`k`-th record contributes exactly one aligned block whose id is the decimal
rendering of the 1-based counter (so aligned ids are monotonically increasing)
and whose reference and query widths both equal the record's `size`,
optionally followed by one gap block whose id is `"n_n+1"`. -/
inductive BlocksSpec : Nat → List AlignmentRecord → List ChainBlock → Prop
  | nil (n : Nat) : BlocksSpec n [] []
  | alignedOnly (n : Nat) (b : AlignmentRecord) (rest : List AlignmentRecord)
      (rs re qs qe : Nat) (rest' : List ChainBlock) :
      re - rs = b.size → qe - qs = b.size →
      BlocksSpec (n + 1) rest rest' →
      BlocksSpec n (b :: rest) (.doubleSided (Nat.repr n) rs re qs qe :: rest')
  | alignedGap (n : Nat) (b : AlignmentRecord) (rest : List AlignmentRecord)
      (rs re qs qe grs gre gqs gqe : Nat) (rest' : List ChainBlock) :
      re - rs = b.size → qe - qs = b.size →
      BlocksSpec (n + 1) rest rest' →
      BlocksSpec n (b :: rest)
        (.doubleSided (Nat.repr n) rs re qs qe ::
         (.doubleSided (Nat.repr n ++ "_" ++ Nat.repr (n + 1)) grs gre gqs gqe :: rest'))

/-- Generalized induction for C7 over the cursor state; on the antiparallel
strand the query cursor dominates the remaining `size + dq` mass, which rules
out the truncated subtraction. -/
theorem to_blocks_spec_go (q_strand : Bool) (recs : List AlignmentRecord) :
    ∀ (r_start q_start n : Nat), (q_strand = false → sumSQ recs ≤ q_start) →
    BlocksSpec n recs (Chain.to_blocks_go .Both true q_strand recs r_start q_start n) := by
  induction recs with
  | nil => intro r_start q_start n _; exact .nil n
  | cons b rest ih =>
    intro r_start q_start n hinv
    have hwq : (if q_strand then q_start + b.size else q_start) -
        (if q_strand then q_start else q_start - b.size) = b.size := by
      cases q_strand with
      | true => simp
      | false =>
        have := hinv rfl
        simp only [sumSQ] at this
        simp only [Bool.false_eq_true, if_false]
        omega
    have hinv' : q_strand = false →
        sumSQ rest ≤ (if q_strand then q_start + b.size + b.dq else q_start - b.size - b.dq) := by
      intro hq
      subst hq
      have := hinv rfl
      simp only [sumSQ] at this
      simp only [Bool.false_eq_true, if_false]
      omega
    simp only [Chain.to_blocks_go, alignedBlockOf, gapBlocksOf, mkBlock]
    by_cases hdq : b.dq = 0
    · have hc : (true && !(b.dq == 0 && b.dq == 0)) = false := by
        simp [hdq]
      rw [hc]
      simp only [Bool.false_eq_true, if_false, List.nil_append]
      exact BlocksSpec.alignedOnly n b rest _ _ _ _ _ (by omega) hwq
        (ih _ _ _ hinv')
    · have hc : (true && !(b.dq == 0 && b.dq == 0)) = true := by
        simp [hdq]
      rw [hc]
      simp only [eq_self_iff_true, if_true, List.cons_append, List.nil_append]
      exact BlocksSpec.alignedGap n b rest _ _ _ _ _ _ _ _ _ (by omega) hwq
        (ih _ _ _ hinv')

/-- C7: for every chain satisfying the data-model invariants on the query side
(`start ≤ end ≤ size` and `Σ(size + dq) = end - start`), the blocks
materialized by `to_blocks(Both, report_gaps)` satisfy: every aligned block
has `r_end - r_start = q_end - q_start = record.size` (on either query
strand); aligned blocks carry the monotonically increasing 1-based decimal
ids; and every gap block sits between aligned blocks `i` and `i + 1` carrying
the id `"i_i+1"`. -/
theorem c7_blocks_spec (c : Chain)
    (hse : c.query.start ≤ c.query.«end») (hes : c.query.«end» ≤ c.query.size)
    (hsum : sumSQ c.alignment = c.query.«end» - c.query.start) :
    BlocksSpec 1 c.alignment (Chain.to_blocks c .Both true) := by
  unfold Chain.to_blocks
  apply to_blocks_spec_go
  intro hq
  have hne : ¬ (c.query.strand = '+') := of_decide_eq_false hq
  rw [if_neg hne]
  omega

/-- C7 witness: the block characterization at the concrete chain `exC2`. -/
theorem c7_blocks_spec_witness :
    (exC2.query.start ≤ exC2.query.«end» ∧ exC2.query.«end» ≤ exC2.query.size ∧
     sumSQ exC2.alignment = exC2.query.«end» - exC2.query.start) ∧
    BlocksSpec 1 exC2.alignment (Chain.to_blocks exC2 .Both true) :=
  ⟨⟨by decide, by decide, by decide⟩, c7_blocks_spec exC2 (by decide) (by decide) (by decide)⟩

/-! ## C8 — forward-strand capping of projected coordinates -/

/-- Both optional endpoints of a projected interval are at most `qe`. -/
def PB (qe : Nat) (p : PInterval) : Prop :=
  (∀ v, p.start? = some v → v ≤ qe) ∧ (∀ v, p.end? = some v → v ≤ qe)

/-- Every projected interval stored in the output map is bounded by `qe`. -/
def QBound (qe : Nat) (out : List (String × PInterval)) : Prop :=
  ∀ p ∈ out, PB qe p.2

/-- Setting a bounded start preserves the bound. -/
theorem PB_update_start {qe v : Nat} {p : PInterval} (h : PB qe p) (hv : v ≤ qe) :
    PB qe (p.update_start v) := by
  refine ⟨fun w hw => ?_, fun w hw => h.2 w hw⟩
  simp only [PInterval.update_start] at hw
  cases hw
  exact hv

/-- Setting a bounded end preserves the bound. -/
theorem PB_update_end {qe v : Nat} {p : PInterval} (h : PB qe p) (hv : v ≤ qe) :
    PB qe (p.update_end v) := by
  refine ⟨fun w hw => h.1 w hw, fun w hw => ?_⟩
  simp only [PInterval.update_end] at hw
  cases hw
  exact hv

/-- Resetting both endpoints is trivially bounded. -/
theorem PB_reset {qe : Nat} {p : PInterval} : PB qe p.reset_both := by
  constructor <;> intro w hw <;> simp [PInterval.reset_both] at hw

/-- Inserting a fresh empty interval preserves the bound. -/
theorem QBound_ensure {qe : Nat} {out : List (String × PInterval)} {n chrom : String}
    (h : QBound qe out) : QBound qe (ensureOut out n chrom) := by
  unfold ensureOut
  split
  · exact h
  · intro p hp
    rcases List.mem_append.1 hp with hm | hm
    · exact h p hm
    · rcases List.mem_singleton.1 hm with rfl
      exact ⟨fun w hw => by simp at hw, fun w hw => by simp at hw⟩

/-- `and_modify` with a bound-preserving update preserves the bound. -/
theorem QBound_updOut {qe : Nat} {out : List (String × PInterval)} {n : String}
    {f : PInterval → PInterval} (h : QBound qe out)
    (hf : ∀ p, PB qe p → PB qe (f p)) : QBound qe (updOut out n f) := by
  intro p hp
  unfold updOut at hp
  rcases List.mem_map.1 hp with ⟨q, hq, he⟩
  by_cases hqn : q.1 = n
  · rw [if_pos hqn] at he
    subst he
    exact hf q.2 (h q hq)
  · rw [if_neg hqn] at he
    subst he
    exact h q hq

/-- The gap start-endpoint rule only stores values bounded by `qe`. -/
theorem PB_gapMapStart {qe : Nat} {p : PInterval} (codir : Bool) (absT relv off qbs qbe : Nat)
    (hqbs : qbs ≤ qe) (hqbe : qbe ≤ qe) (h : PB qe p) :
    PB qe (gapMapStart codir absT relv off qbs qbe qe p) := by
  unfold gapMapStart
  split
  · cases codir with
    | true => exact PB_update_start h hqbs
    | false => exact PB_update_end h (min_le_right _ _)
  · cases codir with
    | true => exact PB_update_start h (le_trans (Nat.sub_le _ _) hqbe)
    | false => exact PB_update_end h (min_le_left _ _)

/-- The gap end-endpoint rule only stores values bounded by `qe`. -/
theorem PB_gapMapEnd {qe : Nat} {p : PInterval} (codir : Bool) (absT relv off qbs qbe : Nat)
    (hqbs : qbs ≤ qe) (hqbe : qbe ≤ qe) (h : PB qe p) :
    PB qe (gapMapEnd codir absT relv off qbs qbe qe p) := by
  unfold gapMapEnd
  split
  · cases codir with
    | true => exact PB_update_end h (min_le_right _ _)
    | false => exact PB_update_start h hqbs
  · cases codir with
    | true => exact PB_update_end h (min_le_right _ _)
    | false => exact PB_update_start h (le_trans (Nat.sub_le _ _) hqbe)

/-- First-block extrapolation stores only bounded values. -/
theorem stepMarginalFirst_bound {ctx : BlockCtx} {i1 i2 : Nat} {name : String}
    {len? : Option Nat} {st st' : MtState}
    (hqbs : ctx.qbs ≤ ctx.queryEnd) (h : QBound ctx.queryEnd st.out)
    (he : stepMarginalFirst ctx i1 i2 name len? st = some st') :
    QBound ctx.queryEnd st'.out := by
  unfold stepMarginalFirst at he
  split at he
  · cases hg : getRel st.relSizes name len? ctx.relT with
    | none => rw [hg] at he; cases he
    | some pr =>
      obtain ⟨relv, rs⟩ := pr
      rw [hg] at he
      dsimp only at he
      split at he <;> split at he <;>
        (cases he
         dsimp only
         refine QBound_updOut h (fun p hp => ?_)
         first
           | exact PB_update_start hp hqbs
           | exact PB_update_end hp (min_le_right _ _)
           | exact PB_update_start hp (le_trans (Nat.sub_le _ _) hqbs))
  · cases he
    exact h

/-- Last-block extrapolation stores only bounded values. -/
theorem stepLastBlock_bound {ctx : BlockCtx} {i1 i2 : Nat} {name : String}
    {len? : Option Nat} {st st' : MtState}
    (hqbs : ctx.qbs ≤ ctx.queryEnd) (h : QBound ctx.queryEnd st.out)
    (he : stepLastBlock ctx i1 i2 name len? st = some st') :
    QBound ctx.queryEnd st'.out := by
  unfold stepLastBlock at he
  split at he
  · cases hg : getRel st.relSizes name len? ctx.relT with
    | none => rw [hg] at he; cases he
    | some pr =>
      obtain ⟨relv, rs⟩ := pr
      rw [hg] at he
      dsimp only at he
      split at he <;> split at he <;>
        (cases he
         dsimp only
         refine QBound_updOut h (fun p hp => ?_)
         first
           | exact PB_update_start hp hqbs
           | exact PB_update_end hp (min_le_right _ _)
           | exact PB_update_start hp (le_trans (Nat.sub_le _ _) hqbs))
  · cases he
    exact h

/-- Aligned-block start mapping stores only bounded values. -/
theorem stepAlignedStart_bound (ctx : BlockCtx) (interStart : Nat) (name : String)
    (st : MtState)
    (hqm : ctx.qbs + (ctx.rBlockEnd - ctx.rStart) ≤ ctx.queryEnd)
    (h : QBound ctx.queryEnd st.out) :
    QBound ctx.queryEnd (stepAlignedStart ctx interStart name st).out := by
  unfold stepAlignedStart
  split
  next hcond =>
    split
    next hcodir =>
      dsimp only
      refine QBound_updOut h (fun p hp => PB_update_start hp ?_)
      omega
    next hcodir =>
      dsimp only
      exact QBound_updOut h (fun p hp => PB_update_end hp (min_le_right _ _))
  next hcond => exact h

/-- Aligned-block end mapping stores only bounded values. -/
theorem stepAlignedEnd_bound (ctx : BlockCtx) (interEnd : Nat) (name : String)
    (st : MtState)
    (hqm : ctx.qbs + (ctx.rBlockEnd - ctx.rStart) ≤ ctx.queryEnd)
    (h : QBound ctx.queryEnd st.out) :
    QBound ctx.queryEnd (stepAlignedEnd ctx interEnd name st).out := by
  unfold stepAlignedEnd
  split
  next hcond =>
    split
    next hcodir =>
      dsimp only
      exact QBound_updOut h (fun p hp => PB_update_end hp (min_le_right _ _))
    next hcodir =>
      dsimp only
      refine QBound_updOut h (fun p hp => PB_update_start hp ?_)
      omega
  next hcond => exact h

/-- The start-in-gap branch stores only bounded values. -/
theorem gapStartSub_bound {ctx : BlockCtx} {interStart : Nat} {name : String}
    {len? : Option Nat} {st st' : MtState}
    (hqbs : ctx.qbs ≤ ctx.queryEnd) (hqbe : ctx.qbe ≤ ctx.queryEnd)
    (h : QBound ctx.queryEnd st.out)
    (he : gapStartSub ctx interStart name len? st = some st') :
    QBound ctx.queryEnd st'.out := by
  unfold gapStartSub at he
  split at he
  · cases hg : getRel st.relSizes name len? ctx.relT with
    | none => rw [hg] at he; cases he
    | some pr =>
      obtain ⟨relv, rs⟩ := pr
      rw [hg] at he
      dsimp only at he
      cases he
      dsimp only
      exact QBound_updOut h (fun p hp => PB_gapMapStart _ _ _ _ _ _ hqbs hqbe hp)
  · cases he
    exact h

/-- The bound, read off any interval-step outcome. -/
def StepOutBound (qe : Nat) : StepOut → Prop
  | .proceed s => QBound qe s.out
  | .brkInner s => QBound qe s.out
  | .brkOuter s => QBound qe s.out
  | .fail _ => True
  | .die _ => True

/-- The break clause never touches the output map. -/
theorem breakClause_bound {qe len rBlockEnd i interEnd : Nat} {st : MtState}
    (h : QBound qe st.out) : StepOutBound qe (breakClause len rBlockEnd i interEnd st) := by
  unfold breakClause
  split
  · dsimp only
    split
    · exact h
    · split <;> exact h
  · split <;> exact h

/-- The continue clause never touches the output map. -/
theorem continueClause_bound {qe len interEnd : Nat} {st : MtState}
    (h : QBound qe st.out) : StepOutBound qe (continueClause len interEnd st) := by
  unfold continueClause
  split
  · dsimp only
    split <;> exact h
  · exact h

/-- One aligned-scan interval step keeps every stored coordinate within the
query bound, given that the block's query window lies within it. -/
theorem alignedStep_bound (ctx : BlockCtx) (iv : InIv) (k : Nat) (st : MtState)
    (hqbs : ctx.qbs ≤ ctx.queryEnd)
    (hqm : ctx.qbs + (ctx.rBlockEnd - ctx.rStart) ≤ ctx.queryEnd)
    (h : QBound ctx.queryEnd st.out) :
    StepOutBound ctx.queryEnd (alignedStep ctx iv k st) := by
  cases hs : iv.start? with
  | none => simp only [alignedStep, hs]; trivial
  | some interStart =>
  cases he : iv.end? with
  | none => simp only [alignedStep, hs, he]; trivial
  | some interEnd =>
  cases hn : iv.name? with
  | none => simp only [alignedStep, hs, he, hn]; trivial
  | some name =>
  simp only [alignedStep, hs, he, hn]
  have h1 : QBound ctx.queryEnd (ensureOut st.out name ctx.qchr) := QBound_ensure h
  split
  · exact breakClause_bound h1
  · split
    · exact continueClause_bound h1
    · cases hm1 : stepMarginalFirst ctx interStart interEnd name iv.length?
          {st with out := ensureOut st.out name ctx.qchr} with
      | none => trivial
      | some st1 =>
        dsimp only
        have h2 := stepMarginalFirst_bound hqbs h1 hm1
        cases hm2 : stepLastBlock ctx interStart interEnd name iv.length? st1 with
        | none => trivial
        | some st2 =>
          dsimp only
          have h3 := stepLastBlock_bound hqbs h2 hm2
          have h4 := stepAlignedStart_bound ctx interStart name st2 hqm h3
          have h5 := stepAlignedEnd_bound ctx interEnd name
            (stepAlignedStart ctx interStart name st2) hqm h4
          exact h5

/-- One gap-scan interval step keeps every stored coordinate within the query
bound, given that the gap's query window lies within it. -/
theorem gapStep_bound (ctx : BlockCtx) (ig : Bool) (iv : InIv) (k : Nat) (st : MtState)
    (hqbs : ctx.qbs ≤ ctx.queryEnd) (hqbe : ctx.qbe ≤ ctx.queryEnd)
    (h : QBound ctx.queryEnd st.out) :
    StepOutBound ctx.queryEnd (gapStep ctx ig iv k st) := by
  cases hs : iv.start? with
  | none => simp only [gapStep, hs]; trivial
  | some interStart =>
  cases he : iv.end? with
  | none => simp only [gapStep, hs, he]; trivial
  | some interEnd =>
  cases hn : iv.name? with
  | none => simp only [gapStep, hs, he, hn]; trivial
  | some name =>
  simp only [gapStep, hs, he, hn]
  have h1 : QBound ctx.queryEnd (ensureOut st.out name ctx.qchr) := QBound_ensure h
  split
  · exact breakClause_bound h1
  · split
    · exact continueClause_bound h1
    · cases hg1 : gapStartSub ctx interStart name iv.length?
          {st with out := ensureOut st.out name ctx.qchr} with
      | none => trivial
      | some st1 =>
        dsimp only
        have h2 := gapStartSub_bound hqbs hqbe h1 hg1
        split
        · split
          · exact QBound_updOut h2 (fun p hp => PB_reset)
          · cases hg2 : getRel st1.relSizes name iv.length? ctx.relT with
            | none => trivial
            | some pr =>
              obtain ⟨relv, rs⟩ := pr
              dsimp only
              exact QBound_updOut h2 (fun p hp => PB_gapMapEnd _ _ _ _ _ _ hqbs hqbe hp)
        · exact h2

/-- The bound, read off a whole-scan outcome. -/
def PassOutBound (qe : Nat) : PassOut → Prop
  | .done s => QBound qe s.out
  | .brkOuter s => QBound qe s.out
  | .fail _ => True
  | .die _ => True

/-- The aligned scan preserves the output bound. -/
theorem alignedPass_bound (ctx : BlockCtx)
    (hqbs : ctx.qbs ≤ ctx.queryEnd)
    (hqm : ctx.qbs + (ctx.rBlockEnd - ctx.rStart) ≤ ctx.queryEnd) :
    ∀ (l : List InIv) (k : Nat) (st : MtState), QBound ctx.queryEnd st.out →
      PassOutBound ctx.queryEnd (alignedPass ctx l k st) := by
  intro l
  induction l with
  | nil => intro k st h; exact h
  | cons iv rest ih =>
    intro k st h
    have hstep := alignedStep_bound ctx iv k st hqbs hqm h
    unfold alignedPass
    cases hres : alignedStep ctx iv k st with
    | proceed s =>
      rw [hres] at hstep
      exact ih (k + 1) s hstep
    | brkInner s => rw [hres] at hstep; exact hstep
    | brkOuter s => rw [hres] at hstep; exact hstep
    | fail m => trivial
    | die m => trivial

/-- The gap scan preserves the output bound. -/
theorem gapPass_bound (ctx : BlockCtx) (ig : Bool)
    (hqbs : ctx.qbs ≤ ctx.queryEnd) (hqbe : ctx.qbe ≤ ctx.queryEnd) :
    ∀ (l : List InIv) (k : Nat) (st : MtState), QBound ctx.queryEnd st.out →
      PassOutBound ctx.queryEnd (gapPass ctx ig l k st) := by
  intro l
  induction l with
  | nil => intro k st h; exact h
  | cons iv rest ih =>
    intro k st h
    have hstep := gapStep_bound ctx ig iv k st hqbs hqbe h
    unfold gapPass
    cases hres : gapStep ctx ig iv k st with
    | proceed s =>
      rw [hres] at hstep
      exact ih (k + 1) s hstep
    | brkInner s => rw [hres] at hstep; exact hstep
    | brkOuter s => rw [hres] at hstep; exact hstep
    | fail m => trivial
    | die m => trivial

/-- The bound, read off an outer-loop outcome. -/
def OuterOutBound (qe : Nat) : OuterOut → Prop
  | .stop out => QBound qe out
  | .next _ s => QBound qe s.out
  | .fail _ => True
  | .die _ => True

/-- One outer record step preserves the output bound, given the query-cursor
invariant `qStart + (size + dq) ≤ queryEnd` (codirected) /
`size + dq ≤ qStart ≤ queryEnd` (antiparallel). -/
theorem outerStep_bound (ctx : OuterCtx) (b : AlignmentRecord)
    (h minStart rStart qStart : Nat) (st : MtState)
    (hc1 : ctx.codirected = true → qStart + (b.size + b.dq) ≤ ctx.queryEnd)
    (hc2 : ctx.codirected = false → b.size + b.dq ≤ qStart ∧ qStart ≤ ctx.queryEnd)
    (hst : QBound ctx.queryEnd st.out) :
    OuterOutBound ctx.queryEnd (outerStep ctx b h minStart rStart qStart st) := by
  have hcodir : ctx.codirected = true ∨ ctx.codirected = false := by
    cases ctx.codirected
    · exact Or.inr rfl
    · exact Or.inl rfl
  have hqbsA : (if ctx.codirected then qStart else qStart - b.size) ≤ ctx.queryEnd := by
    rcases hcodir with hco | hco
    · rw [if_pos (by simp [hco])]
      have := hc1 hco
      omega
    · rw [if_neg (by simp [hco])]
      have := hc2 hco
      omega
  have hqmA : (if ctx.codirected then qStart else qStart - b.size) +
      (rStart + b.size - rStart) ≤ ctx.queryEnd := by
    rcases hcodir with hco | hco
    · rw [if_pos (by simp [hco])]
      have := hc1 hco
      omega
    · rw [if_neg (by simp [hco])]
      have := hc2 hco
      omega
  have hqbsG : (if ctx.codirected then qStart + b.size else qStart - b.size - b.dq) ≤
      ctx.queryEnd := by
    rcases hcodir with hco | hco
    · rw [if_pos (by simp [hco])]
      have := hc1 hco
      omega
    · rw [if_neg (by simp [hco])]
      have := hc2 hco
      omega
  have hqbeG : (if ctx.codirected then qStart + b.size + b.dq else qStart - b.size) ≤
      ctx.queryEnd := by
    rcases hcodir with hco | hco
    · rw [if_pos (by simp [hco])]
      have := hc1 hco
      omega
    · rw [if_neg (by simp [hco])]
      have := hc2 hco
      omega
  unfold outerStep
  split
  · exact hst
  · dsimp only
    split
    · exact hst
    · cases hpass : alignedPass
          ⟨ctx.len, ctx.qchr, ctx.codirected, ctx.absT, ctx.relT, h,
            b.dt == 0 && b.dq == 0, rStart, rStart + b.size,
            if ctx.codirected then qStart else qStart - b.size,
            if ctx.codirected then qStart + b.size else qStart,
            ctx.rEnd, ctx.queryEnd⟩
          (ctx.I.drop st.curr) 0 st with
      | fail m => trivial
      | die m => trivial
      | brkOuter s =>
        have hb := alignedPass_bound
          ⟨ctx.len, ctx.qchr, ctx.codirected, ctx.absT, ctx.relT, h,
            b.dt == 0 && b.dq == 0, rStart, rStart + b.size,
            if ctx.codirected then qStart else qStart - b.size,
            if ctx.codirected then qStart + b.size else qStart,
            ctx.rEnd, ctx.queryEnd⟩ hqbsA hqmA (ctx.I.drop st.curr) 0 st hst
        rw [hpass] at hb
        exact hb
      | done s =>
        have hb := alignedPass_bound
          ⟨ctx.len, ctx.qchr, ctx.codirected, ctx.absT, ctx.relT, h,
            b.dt == 0 && b.dq == 0, rStart, rStart + b.size,
            if ctx.codirected then qStart else qStart - b.size,
            if ctx.codirected then qStart + b.size else qStart,
            ctx.rEnd, ctx.queryEnd⟩ hqbsA hqmA (ctx.I.drop st.curr) 0 st hst
        rw [hpass] at hb
        dsimp only
        split
        · exact hb
        · split
          · exact hb
          · split
            · exact hb
            · cases hpass2 : gapPass
                  ⟨ctx.len, ctx.qchr, ctx.codirected, ctx.absT, ctx.relT, h,
                    b.dt == 0 && b.dq == 0, rStart + b.size, rStart + b.size + b.dt,
                    if ctx.codirected then qStart + b.size else qStart - b.size - b.dq,
                    if ctx.codirected then qStart + b.size + b.dq else qStart - b.size,
                    ctx.rEnd, ctx.queryEnd⟩
                  ctx.ig (ctx.I.drop s.curr) 0 s with
              | fail m => trivial
              | die m => trivial
              | brkOuter s2 =>
                have hb2 := gapPass_bound
                  ⟨ctx.len, ctx.qchr, ctx.codirected, ctx.absT, ctx.relT, h,
                    b.dt == 0 && b.dq == 0, rStart + b.size, rStart + b.size + b.dt,
                    if ctx.codirected then qStart + b.size else qStart - b.size - b.dq,
                    if ctx.codirected then qStart + b.size + b.dq else qStart - b.size,
                    ctx.rEnd, ctx.queryEnd⟩ ctx.ig hqbsG hqbeG
                  (ctx.I.drop s.curr) 0 s hb
                rw [hpass2] at hb2
                exact hb2
              | done s2 =>
                have hb2 := gapPass_bound
                  ⟨ctx.len, ctx.qchr, ctx.codirected, ctx.absT, ctx.relT, h,
                    b.dt == 0 && b.dq == 0, rStart + b.size, rStart + b.size + b.dt,
                    if ctx.codirected then qStart + b.size else qStart - b.size - b.dq,
                    if ctx.codirected then qStart + b.size + b.dq else qStart - b.size,
                    ctx.rEnd, ctx.queryEnd⟩ ctx.ig hqbsG hqbeG
                  (ctx.I.drop s.curr) 0 s hb
                rw [hpass2] at hb2
                dsimp only
                split
                · exact hb2
                · split
                  · trivial
                  · split
                    · trivial
                    · exact hb2

/-- The outer sweep preserves the output bound under the running cursor
invariant: codirected, `qStart` plus the remaining `size + dq` mass equals
`queryEnd`; antiparallel, the remaining mass never exceeds `qStart`, which
never exceeds `queryEnd`. -/
theorem mapThroughGo_bound (ctx : OuterCtx) :
    ∀ (recs : List AlignmentRecord) (h minStart rStart qStart : Nat) (st : MtState)
      (out : List (String × PInterval)),
    (ctx.codirected = true → qStart + sumSQ recs = ctx.queryEnd) →
    (ctx.codirected = false → sumSQ recs ≤ qStart ∧ qStart ≤ ctx.queryEnd) →
    QBound ctx.queryEnd st.out →
    mapThroughGo ctx recs h minStart rStart qStart st = .ok out →
    QBound ctx.queryEnd out := by
  intro recs
  induction recs with
  | nil =>
    intro h m r q st out _ _ hst hok
    simp only [mapThroughGo] at hok
    cases hok
    exact hst
  | cons b rest ih =>
    intro h m r q st out hci1 hci2 hst hok
    have hc1 : ctx.codirected = true → q + (b.size + b.dq) ≤ ctx.queryEnd := by
      intro hco
      have := hci1 hco
      simp only [sumSQ] at this
      omega
    have hc2 : ctx.codirected = false → b.size + b.dq ≤ q ∧ q ≤ ctx.queryEnd := by
      intro hco
      have := hci2 hco
      simp only [sumSQ] at this
      omega
    have hob := outerStep_bound ctx b h m r q st hc1 hc2 hst
    simp only [mapThroughGo] at hok
    cases hstep : outerStep ctx b h m r q st with
    | stop o =>
      rw [hstep] at hok hob
      dsimp only at hok
      cases hok
      exact hob
    | fail m' =>
      rw [hstep] at hok
      dsimp only at hok
      cases hok
    | die m' =>
      rw [hstep] at hok
      dsimp only at hok
      cases hok
    | next m2 s2 =>
      rw [hstep] at hok hob
      dsimp only at hok
      refine ih (h + 1) m2 (r + b.size + b.dt) _ s2 out ?_ ?_ hob hok
      · intro hco
        have := hci1 hco
        simp only [sumSQ] at this
        rw [if_pos (by simp [hco] : ctx.codirected = true)]
        omega
      · intro hco
        have := hci2 hco
        simp only [sumSQ] at this
        rw [if_neg (by simp [hco] : ¬ ctx.codirected = true)]
        omega

/-- C8: for every chain satisfying the data-model invariants on the query side
(`start ≤ end ≤ size`, `Σ(size + dq) = end - start`) and every input interval
batch, thresholds and `ignore_undefined` mode, every projected start or end
coordinate in a successful `map_through_` result lies within
`[0, query.size]` on the forward strand of the query side (coordinates are
`Nat`, so the lower bound is inherent; every branch is capped by
`query_end ≤ query.size`). -/
theorem c8_capping (c : Chain) (ivs : List InIv) (absT : Nat) (relT : ℚ) (ig : Bool)
    (out : List (String × PInterval))
    (hse : c.query.start ≤ c.query.«end») (hes : c.query.«end» ≤ c.query.size)
    (hsum : sumSQ c.alignment = c.query.«end» - c.query.start)
    (hok : Chain.map_through_ c ivs absT relT ig = .ok out) :
    ∀ p ∈ out, (∀ v, p.2.start? = some v → v ≤ c.query.size) ∧
      (∀ v, p.2.end? = some v → v ≤ c.query.size) := by
  unfold Chain.map_through_ at hok
  cases hsort : sortIvs ivs with
  | none => rw [hsort] at hok; cases hok
  | some I =>
    rw [hsort] at hok
    dsimp only at hok
    cases I with
    | nil => cases hok
    | cons iv0 rest =>
      dsimp only at hok
      cases hs0 : iv0.start? with
      | none => rw [hs0] at hok; cases hok
      | some minStart =>
        rw [hs0] at hok
        dsimp only at hok
        cases hl : ((iv0 :: rest).getLastD ⟨none, none, none, none⟩).end? with
        | none => rw [hl] at hok; cases hok
        | some maxEnd =>
          rw [hl] at hok
          dsimp only at hok
          cases he0 : iv0.end? with
          | none => rw [he0] at hok; cases hok
          | some currEnd =>
            rw [he0] at hok
            dsimp only at hok
            have hqe : (if c.query.strand == '+' then c.query.«end»
                else c.query.size - c.query.start) ≤ c.query.size := by
              split
              · exact hes
              · exact Nat.sub_le _ _
            have hq := mapThroughGo_bound
              ⟨iv0 :: rest, (iv0 :: rest).length, c.query.chr,
                c.query.strand == '+', absT, relT, ig, c.refs.«end»,
                if c.query.strand == '+' then c.query.«end»
                  else c.query.size - c.query.start⟩
              c.alignment 0 minStart c.refs.start
              (if c.query.strand == '+' then c.query.start
                else c.query.size - c.query.start)
              ⟨[], [], 0, currEnd, maxEnd⟩ out ?_ ?_ ?_ hok
            · intro p hp
              have hb := hq p hp
              exact ⟨fun v hv => le_trans (hb.1 v hv) hqe,
                fun v hv => le_trans (hb.2 v hv) hqe⟩
            · intro hco
              replace hco : (c.query.strand == '+') = true := hco
              dsimp only
              simp only [if_pos hco]
              omega
            · intro hco
              replace hco : (c.query.strand == '+') = false := hco
              have hco' : ¬ ((c.query.strand == '+') = true) := by simp [hco]
              dsimp only
              simp only [if_neg hco']
              omega
            · intro p hp
              exact absurd hp (List.not_mem_nil p)

/-- C8 witness: the capping statement at a concrete run of `map_through_` on
`exC4`. -/
theorem c8_capping_witness :
    (exC4.query.start ≤ exC4.query.«end» ∧ exC4.query.«end» ≤ exC4.query.size ∧
     sumSQ exC4.alignment = exC4.query.«end» - exC4.query.start) ∧
    (∀ p ∈ [("X", (⟨some "X", some "q", some 510, some 520⟩ : PInterval))],
      (∀ v, p.2.start? = some v → v ≤ exC4.query.size) ∧
      (∀ v, p.2.end? = some v → v ≤ exC4.query.size)) :=
  ⟨⟨by decide, by decide, by decide⟩,
    c8_capping exC4 [⟨some 110, some 120, some "X", some 10⟩] 0 0 false
      [("X", ⟨some "X", some "q", some 510, some 520⟩)]
      (by decide) (by decide) (by decide) (by decide)⟩
